import Mathlib

/-!
# Verification of the virtual-tree reconciliation engine

Shallow embedding of the diff/patch/reconciler core found in the repository
(the Opera-Toolkit-style engine): the `Diff` class (state diffing, map diffs,
component/content diffing), the `Reconciler` (`calculateMoves` and `Move`),
the `Lifecycle` hook sequencing, the `Dispatcher` command closure, and the
`Patch` model.

Conventions used throughout:
* JavaScript values are modelled by the inductive `JSVal`; reference types
  (functions, arrays, objects) carry a numeric identity so that strict
  equality (`===` / `Object.is`) can be distinguished from structural
  deep equality.
* Machine-level recursion of the source is total structural recursion here;
  where the JS recursion is not structural for Lean (mutual descent through
  arrays / object fields / node trees) the functions take an explicit fuel
  argument that is instantiated by a bound that dominates the recursion
  depth, keeping every definition executable by kernel reduction.
* Reconciler keys are generic in an ordered type `K`; in the source keys are
  JS strings compared with `===` and `>` (lexicographic), which is a linear
  order, and positional fallback keys are zero-padded digit strings.
-/

/-! ## JavaScript value model -/

/-- A JavaScript value.  Reference values (`fn`, `arr`, `obj`) carry a
numeric identity standing for the heap reference, so that `===` can be
modelled; `obj` also carries the name of its constructor (compared by
`Diff.deepEqual`). -/
inductive JSVal where
  | undefined
  | null
  | boolean (b : Bool)
  | number (n : Int)
  | str (s : String)
  | fn (id : Nat)
  | arr (id : Nat) (elems : List JSVal)
  | obj (id : Nat) (ctorName : String) (fields : List (String × JSVal))
deriving Repr

/-- Strict equality `Object.is` / `===` on modelled values: primitives by
value, reference values by identity.  (`Object.is` and `===` agree on the
modelled fragment since numbers are integral.) -/
def jsIs : JSVal → JSVal → Bool
  | .undefined, .undefined => true
  | .null, .null => true
  | .boolean a, .boolean b => a == b
  | .number a, .number b => a == b
  | .str a, .str b => a == b
  | .fn a, .fn b => a == b
  | .arr a _, .arr b _ => a == b
  | .obj a _ _, .obj b _ _ => a == b
  | _, _ => false

/-- `Diff.getType`: the normalized type tag of a value (`typeof` refined so
that `null` and arrays are distinguished from `"object"`). -/
def getType : JSVal → String
  | .undefined => "undefined"
  | .null => "null"
  | .boolean _ => "boolean"
  | .number _ => "number"
  | .str _ => "string"
  | .fn _ => "function"
  | .arr _ _ => "array"
  | .obj _ _ _ => "object"

/-- JavaScript truthiness of a modelled value. -/
def jsTruthy : JSVal → Bool
  | .undefined => false
  | .null => false
  | .boolean b => b
  | .number n => n != 0
  | .str s => s != ""
  | .fn _ => true
  | .arr _ _ => true
  | .obj _ _ _ => true

/-- Property lookup `o[key]` on an object's field list (`undefined` when the
key is missing; `Object.keys` guarantees presence at every use site in the
source). -/
def jsGetField (fields : List (String × JSVal)) (key : String) : JSVal :=
  match fields.lookup key with
  | some v => v
  | none => .undefined

/-- The keys of an object, sorted as by JavaScript's default `Array.sort`
(string comparison). -/
def sortedKeys (fields : List (String × JSVal)) : List String :=
  (fields.map Prod.fst).insertionSort (· ≤ ·)

/-- Fuelled worker for `Diff.deepEqual`.  The source recurses through array
elements and object field values; the fuel is instantiated with `sizeOf` of
the first argument, which strictly dominates that recursion, so the fuel-zero
fallback is never reached.  Object comparison follows the source: equal
constructors, equal key count, equal sorted key lists, and recursive deep
equality of the values at every key (the source walks the sorted keys; the
conjunction is order-independent, so walking the field list is equivalent
for the duplicate-free field lists produced by JS objects). -/
def deepEqualAux : Nat → JSVal → JSVal → Bool
  | 0, current, next => jsIs current next
  | fuel + 1, current, next =>
    if jsIs current next then true
    else if getType current != getType next then false
    else match current, next with
      | .arr _ es, .arr _ es' =>
        es.length == es'.length &&
          (es.zip es').all (fun p => deepEqualAux fuel p.1 p.2)
      | .obj _ c fs, .obj _ c' fs' =>
        c == c' && fs.length == fs'.length &&
          sortedKeys fs == sortedKeys fs' &&
          fs.all (fun p => deepEqualAux fuel p.2 (jsGetField fs' p.1))
      | _, _ => false

mutual

/-- Structural size of a value; dominates the recursion depth of
`Diff.deepEqual`. -/
def JSVal.jsize : JSVal → Nat
  | .undefined => 1
  | .null => 1
  | .boolean _ => 1
  | .number _ => 1
  | .str _ => 1
  | .fn _ => 1
  | .arr _ es => 1 + jsizeList es
  | .obj _ _ fs => 1 + jsizeFields fs

def jsizeList : List JSVal → Nat
  | [] => 0
  | e :: es => e.jsize + jsizeList es

def jsizeFields : List (String × JSVal) → Nat
  | [] => 0
  | f :: fs => f.2.jsize + jsizeFields fs

end

/-- `Diff.deepEqual`. -/
def deepEqual (current next : JSVal) : Bool :=
  deepEqualAux current.jsize current next

/-! ## Listeners

Event listeners are JS functions; `Diff` compares them by identity, with a
nuance: a wrapped listener records its original function under `source`, and
two listeners count as changed only when both their identities and their
recorded sources differ (listeners without a `source` compare by identity
alone). -/

/-- An event listener: a function identity plus the optional identity of the
original function it wraps (its `source` property). -/
structure Listener where
  id : Nat
  source : Option Nat
deriving Repr, DecidableEq

/-! ## Description model

Normalized descriptions (`core/description`).  A component description
carries the identity of its component class (compared with `===` by
`isCompatible`); an element description carries the tag name and the payload
maps.  The `custom` attribute/listener pass-through set is not consulted by
any formalized claim and is omitted from the payload. -/

inductive Description where
  | component (componentClass : Nat) (key : Option String) (props : Option JSVal)
      (children : Option (List Description))
  | element (name : String) (key : Option String) (class_ : Option String)
      (style : Option (List (String × JSVal)))
      (attrs : Option (List (String × JSVal)))
      (dataset : Option (List (String × JSVal)))
      (properties : Option (List (String × JSVal)))
      (listeners : Option (List (String × Listener)))
      (children : Option (List Description)) (text : Option String)
  | comment (text : String)
  | text (text : String)
deriving Repr

/-- `Description.isCompatible`: same constructor, and for components the same
component class, for elements the same tag name, for comments and texts the
same text. -/
def Description.isCompatible : Description → Description → Bool
  | .component c _ _ _, .component c' _ _ _ => c == c'
  | .element n _ _ _ _ _ _ _ _ _, .element n' _ _ _ _ _ _ _ _ _ => n == n'
  | .comment t, .comment t' => t == t'
  | .text t, .text t' => t == t'
  | _, _ => false

/-- Deep equality of an optional map of JS values, as `Diff.deepEqual`
computes it on the corresponding plain sub-objects of a description. -/
def mapsDeepEqual :
    Option (List (String × JSVal)) → Option (List (String × JSVal)) → Bool
  | none, none => true
  | some fs, some fs' =>
      fs.length == fs'.length && sortedKeys fs == sortedKeys fs' &&
        fs.all (fun p => deepEqual p.2 (jsGetField fs' p.1))
  | _, _ => false

/-- Deep equality of an optional listener map: `Diff.deepEqual` reaches the
individual listener functions and compares them with `Object.is`, i.e. by
identity. -/
def listenerMapsEqual :
    Option (List (String × Listener)) → Option (List (String × Listener)) → Bool
  | none, none => true
  | some ls, some ls' =>
      ls.length == ls'.length &&
        ((ls.map Prod.fst).insertionSort (· ≤ ·) ==
          (ls'.map Prod.fst).insertionSort (· ≤ ·)) &&
        ls.all (fun p => (match ls'.lookup p.1 with
          | some l' => p.2.id == l'.id
          | none => false))
  | _, _ => false

/-- Fuelled worker for `Diff.deepEqual` specialized to descriptions (the
source applies the single dynamic `deepEqual` to description objects; the
typed embedding specializes it per variant: same constructor, and deep
equality of every payload field, with function-valued leaves — listeners —
compared by identity). -/
def descEqAux : Nat → Description → Description → Bool
  | 0, _, _ => false
  | fuel + 1, d, d' =>
    match d, d' with
    | .component c k p ch, .component c' k' p' ch' =>
        c == c' && k == k' &&
        (match p, p' with
         | none, none => true
         | some v, some v' => deepEqual v v'
         | _, _ => false) &&
        (match ch, ch' with
         | none, none => true
         | some cs, some cs' =>
             cs.length == cs'.length &&
               (cs.zip cs').all (fun q => descEqAux fuel q.1 q.2)
         | _, _ => false)
    | .element n k c st at_ da pr ls ch tx, .element n' k' c' st' at' da' pr' ls' ch' tx' =>
        n == n' && k == k' && c == c' &&
        mapsDeepEqual st st' &&
        mapsDeepEqual at_ at' &&
        mapsDeepEqual da da' &&
        mapsDeepEqual pr pr' &&
        listenerMapsEqual ls ls' && tx == tx' &&
        (match ch, ch' with
         | none, none => true
         | some cs, some cs' =>
             cs.length == cs'.length &&
               (cs.zip cs').all (fun q => descEqAux fuel q.1 q.2)
         | _, _ => false)
    | .comment t, .comment t' => t == t'
    | .text t, .text t' => t == t'
    | _, _ => false

mutual

/-- Structural size of a description; dominates the recursion depth of
`Diff.deepEqual` applied to descriptions. -/
def Description.dsize : Description → Nat
  | .component _ _ _ ch => 1 + dsizeChildren ch
  | .element _ _ _ _ _ _ _ _ ch _ => 1 + dsizeChildren ch
  | .comment _ => 1
  | .text _ => 1

def dsizeChildren : Option (List Description) → Nat
  | none => 0
  | some cs => dsizeList cs

def dsizeList : List Description → Nat
  | [] => 0
  | d :: ds => d.dsize + dsizeList ds

end

/-- `Diff.deepEqual` on two descriptions. -/
def descEq (d d' : Description) : Bool :=
  descEqAux d.dsize d d'

/-! ## Node model

Live nodes (`core/nodes`).  A node mirrors its description and owns the
tree structure: elements own an optional child list, components own an
optional single `content` child; a `root` is a component that is also a tree
boundary.  `id` stands for the node's heap identity (used to name lifecycle
notifications), `ref` for the render-target handle, `parentRef` for the
parent back-reference. -/

inductive NodeKind where
  | component
  | root
  | element
  | comment
  | text
deriving Repr, DecidableEq

/-- Which of the optional lifecycle hook methods a component defines
(`hasOwnMethod`). -/
structure Hooks where
  onCreated : Bool
  onAttached : Bool
  onPropsReceived : Bool
  onUpdated : Bool
  onDetached : Bool
  onDestroyed : Bool
deriving Repr, DecidableEq

/-- The empty hook set. -/
def Hooks.none : Hooks := ⟨false, false, false, false, false, false⟩

inductive VNode where
  | mk (id : Nat) (kind : NodeKind) (description : Description)
      (key : Option String) (parentRef : Option Nat) (ref : Option Nat)
      (isInitializedFlag : Bool) (hooks : Hooks)
      (children : Option (List VNode)) (content : Option VNode)
deriving Repr

def VNode.id : VNode → Nat
  | .mk i _ _ _ _ _ _ _ _ _ => i

def VNode.kind : VNode → NodeKind
  | .mk _ k _ _ _ _ _ _ _ _ => k

def VNode.description : VNode → Description
  | .mk _ _ d _ _ _ _ _ _ _ => d

def VNode.key : VNode → Option String
  | .mk _ _ _ k _ _ _ _ _ _ => k

def VNode.parentRef : VNode → Option Nat
  | .mk _ _ _ _ p _ _ _ _ _ => p

def VNode.ref : VNode → Option Nat
  | .mk _ _ _ _ _ r _ _ _ _ => r

def VNode.isInitialized : VNode → Bool
  | .mk _ _ _ _ _ _ init _ _ _ => init

def VNode.hooks : VNode → Hooks
  | .mk _ _ _ _ _ _ _ h _ _ => h

def VNode.children : VNode → Option (List VNode)
  | .mk _ _ _ _ _ _ _ _ cs _ => cs

def VNode.content : VNode → Option VNode
  | .mk _ _ _ _ _ _ _ _ _ c => c

/-- `node.isElement()`. -/
def VNode.isElement (n : VNode) : Bool := n.kind == .element

/-- `node.isComponent()` — roots are components (`Root extends Component`). -/
def VNode.isComponent (n : VNode) : Bool := n.kind == .component || n.kind == .root

/-- `node.isRoot()`. -/
def VNode.isRoot (n : VNode) : Bool := n.kind == .root

/-! ## Patch model

The tagged patch operations (`core/patch`).  Each constructor carries the
fields the corresponding static factory stores on the patch. -/

inductive Patch where
  | initRootComponent (root : VNode)
  | updateNode (node : VNode) (prevDescription : Description) (description : Description)
  | insertChild (node : VNode) (at_ : Nat) (parent : VNode)
  | moveChild (child : VNode) (from_ : Nat) (to_ : Nat) (parent : VNode)
  | replaceChild (child : VNode) (node : VNode) (parent : VNode)
  | removeChild (child : VNode) (at_ : Nat) (parent : VNode)
  | setContent (node : VNode) (child : Option VNode) (parent : VNode)
  | setAttribute (name : String) (value : JSVal) (target : Option VNode) (isCustom : Bool)
  | removeAttribute (name : String) (target : Option VNode) (isCustom : Bool)
  | setDataAttribute (name : String) (value : JSVal) (target : Option VNode)
  | removeDataAttribute (name : String) (target : Option VNode)
  | setStyleProperty (property : String) (value : JSVal) (target : Option VNode)
  | removeStyleProperty (property : String) (target : Option VNode)
  | setClassName (className : String) (target : Option VNode)
  | addListener (name : String) (listener : Listener) (target : Option VNode) (isCustom : Bool)
  | replaceListener (name : String) (removed : Listener) (added : Listener)
      (target : Option VNode) (isCustom : Bool)
  | removeListener (name : String) (listener : Listener) (target : Option VNode) (isCustom : Bool)
  | setProperty (key : String) (value : JSVal) (target : Option VNode)
  | deleteProperty (key : String) (target : Option VNode)
deriving Repr

/-- `Patch.updateNode(node, description)`: the factory captures the node's
current description as `prevDescription`. -/
def Patch.mkUpdateNode (node : VNode) (description : Description) : Patch :=
  .updateNode node node.description description

/-- `Patch.setContent(node, parent)`: the factory captures `parent.content`
as the displaced `child`. -/
def Patch.mkSetContent (node : VNode) (parent : VNode) : Patch :=
  .setContent node parent.content parent

/-- `UPDATE_NODE.apply`: `this.node.description = this.description` — the
node's description field is assigned and nothing else is touched. -/
def updateNodeApply (description : Description) : VNode → VNode
  | .mk i k _ ky p r init hooks children content =>
      .mk i k description ky p r init hooks children content

/-! ## Map diffs (`Diff.stylePatches` … `Diff.propertiesPatches`)

Each map-diff computes the added / removed / changed key sets with
`Object.keys` and `Array.filter`, then emits one patch per key: all added,
then all removed, then all changed.  The value comparison deciding `changed`
is the one the source uses: strict `!==` for attributes, style properties
and dataset entries; `Diff.deepEqual` for direct properties; identity
refined by the recorded `source` function for listeners. -/

/-- `Object.keys` of a modelled map. -/
def objKeys {α : Type} (m : List (String × α)) : List String := m.map Prod.fst

/-- `m[key]` for a key produced by `Object.keys(m)`. -/
def mapGet {α : Type} (dflt : α) (m : List (String × α)) (key : String) : α :=
  match m.lookup key with
  | some v => v
  | none => dflt

/-- `Diff.stylePatches`. -/
def stylePatches (current next : List (String × JSVal)) (target : Option VNode) :
    List Patch :=
  let props := objKeys current
  let nextProps := objKeys next
  let added := nextProps.filter (fun prop => !(props.contains prop))
  let removed := props.filter (fun prop => !(nextProps.contains prop))
  let changed := props.filter (fun prop =>
    nextProps.contains prop &&
      !(jsIs (mapGet .undefined current prop) (mapGet .undefined next prop)))
  added.map (fun prop => Patch.setStyleProperty prop (mapGet .undefined next prop) target) ++
  removed.map (fun prop => Patch.removeStyleProperty prop target) ++
  changed.map (fun prop => Patch.setStyleProperty prop (mapGet .undefined next prop) target)

/-- `Diff.attributePatches`. -/
def attributePatches (current next : List (String × JSVal)) (target : Option VNode)
    (isCustom : Bool) : List Patch :=
  let attrs := objKeys current
  let nextAttrs := objKeys next
  let added := nextAttrs.filter (fun attr => !(attrs.contains attr))
  let removed := attrs.filter (fun attr => !(nextAttrs.contains attr))
  let changed := attrs.filter (fun attr =>
    nextAttrs.contains attr &&
      !(jsIs (mapGet .undefined current attr) (mapGet .undefined next attr)))
  added.map (fun attr =>
    Patch.setAttribute attr (mapGet .undefined next attr) target isCustom) ++
  removed.map (fun attr => Patch.removeAttribute attr target isCustom) ++
  changed.map (fun attr =>
    Patch.setAttribute attr (mapGet .undefined next attr) target isCustom)

/-- `Diff.datasetPatches`. -/
def datasetPatches (current next : List (String × JSVal)) (target : Option VNode) :
    List Patch :=
  let attrs := objKeys current
  let nextAttrs := objKeys next
  let added := nextAttrs.filter (fun attr => !(attrs.contains attr))
  let removed := attrs.filter (fun attr => !(nextAttrs.contains attr))
  let changed := attrs.filter (fun attr =>
    nextAttrs.contains attr &&
      !(jsIs (mapGet .undefined current attr) (mapGet .undefined next attr)))
  added.map (fun attr => Patch.setDataAttribute attr (mapGet .undefined next attr) target) ++
  removed.map (fun attr => Patch.removeDataAttribute attr target) ++
  changed.map (fun attr => Patch.setDataAttribute attr (mapGet .undefined next attr) target)

/-- `Diff.propertiesPatches` — the only map-diff whose `changed` test uses
`Diff.deepEqual`. -/
def propertiesPatches (current next : List (String × JSVal)) (target : Option VNode) :
    List Patch :=
  let keys := objKeys current
  let nextKeys := objKeys next
  let added := nextKeys.filter (fun key => !(keys.contains key))
  let removed := keys.filter (fun key => !(nextKeys.contains key))
  let changed := keys.filter (fun key =>
    nextKeys.contains key &&
      !(deepEqual (mapGet .undefined current key) (mapGet .undefined next key)))
  added.map (fun key => Patch.setProperty key (mapGet .undefined next key) target) ++
  removed.map (fun key => Patch.deleteProperty key target) ++
  changed.map (fun key => Patch.setProperty key (mapGet .undefined next key) target)

/-- The dummy listener used only as the (unreachable) default of a listener
map lookup. -/
def Listener.dflt : Listener := ⟨0, Option.none⟩

/-- The `changed` test of `Diff.listenerPatches`:
`current[event] !== next[event] && (both sources undefined || sources differ)`. -/
def listenerChanged (cur next : Listener) : Bool :=
  cur.id != next.id &&
    ((cur.source == Option.none && next.source == Option.none) ||
      cur.source != next.source)

/-- `Diff.listenerPatches`. -/
def listenerPatches (current next : List (String × Listener)) (target : Option VNode)
    (isCustom : Bool) : List Patch :=
  let listeners := objKeys current
  let nextListeners := objKeys next
  let added := nextListeners.filter (fun event => !(listeners.contains event))
  let removed := listeners.filter (fun event => !(nextListeners.contains event))
  let changed := listeners.filter (fun event =>
    nextListeners.contains event &&
      listenerChanged (mapGet Listener.dflt current event) (mapGet Listener.dflt next event))
  added.map (fun event =>
    Patch.addListener event (mapGet Listener.dflt next event) target isCustom) ++
  removed.map (fun event =>
    Patch.removeListener event (mapGet Listener.dflt current event) target isCustom) ++
  changed.map (fun event =>
    Patch.replaceListener event (mapGet Listener.dflt current event)
      (mapGet Listener.dflt next event) target isCustom)

/-! ## `Diff.calculate`

The entry point of a diff cycle: `new Diff(root, from, to)` starts with an
empty patch list and runs `calculate(currentState, nextState)`, which
1. adds the init-root-component patch when `currentState` is falsy,
2. returns early — adding nothing further — when the states are deep-equal,
3. otherwise re-renders the root against the new state and recurses
   (`Template.describe`, `componentPatches`, `attributePatches`).
Step 3 invokes the externally supplied templating layer and the component
render functions; its patch output is abstracted as the `rest` parameter,
which the deep-equal path never reaches.  The function returns the `patches`
list accumulated by `addPatch`, which `Diff.apply` applies. -/
def Diff.calculate (root : VNode) (currentState nextState : JSVal)
    (rest : List Patch) : List Patch :=
  let patches := if !(jsTruthy currentState) then [Patch.initRootComponent root] else []
  if deepEqual currentState nextState then patches
  else patches ++ rest

/-! ## `Diff.componentPatches` and `Diff.componentContentPatches`

The diff engine records two kinds of observable actions while walking a
component: invoking a component's render function, and emitting a patch.
Both functions are transcribed with their mutually recursive continuation
(`Diff.childPatches`) and the node factory (`VirtualDOM.createFromDescription`)
as explicit parameters, quantified over in every theorem; a thrown
`Error` is an `Except.error`. -/

/-- One observable action of a diff pass over a component subtree. -/
inductive DiffEvent where
  | patch (p : Patch)
  | render (componentId : Nat)
deriving Repr

/-- `Diff.componentContentPatches(description, parent)`: the four-way content
transition for a component's single content child. -/
def componentContentPatches
    (childPatches : VNode → Description → Except String (List DiffEvent))
    (createFromDescription : Description → VNode)
    (description : Option Description) (parent : VNode) :
    Except String (List DiffEvent) :=
  let content := parent.content
  match content, description with
  | Option.none, Option.none => .ok []
  | Option.none, some _ => .error "Invalid component state!"
  | some _, Option.none => .error "Invalid component state!"
  | some content, some description =>
    if content.description.isCompatible description then
      if descEq content.description description then .ok []
      else childPatches content description
    else
      let node := createFromDescription description
      .ok [DiffEvent.patch (Patch.mkSetContent node parent)]

/-- `Diff.componentPatches(component, description)`: memoization guard, then
render, recursive content diff, and the closing update-node patch.  `render`
abstracts `Renderer.render` (which invokes the user-supplied render function
of the component — the event records the invocation). -/
def componentPatches
    (render : VNode → Description → Description)
    (childPatches : VNode → Description → Except String (List DiffEvent))
    (createFromDescription : Description → VNode)
    (component : VNode) (description : Description) :
    Except String (List DiffEvent) :=
  if component.isInitialized && descEq component.description description then
    .ok []
  else
    let nodeDescription := render component description
    match componentContentPatches childPatches createFromDescription
        (some nodeDescription) component with
    | .error e => .error e
    | .ok inner =>
        .ok (DiffEvent.render component.id :: inner ++
          [DiffEvent.patch (Patch.mkUpdateNode component description)])

/-! ## Lifecycle (`core/lifecycle`)

The lifecycle functions walk a node subtree and invoke the hook methods the
visited components define.  The embedding records the sequence of hook
invocations; the accompanying state mutations (`node.parentNode = null`) and
the dispatcher mode toggles around each hook do not reorder invocations and
are not recorded.  The mutually recursive walkers take an explicit fuel,
instantiated with a bound that dominates the recursion depth (each step
either strictly descends the tree or moves from the `onNode…` dispatcher to
the per-kind walker of the same node). -/

/-- One lifecycle hook invocation, identified by the node's identity. -/
inductive LEvent where
  | created (id : Nat)
  | attached (id : Nat)
  | propsReceived (id : Nat)
  | updated (id : Nat)
  | detached (id : Nat)
  | destroyed (id : Nat)
deriving Repr, DecidableEq

/-- Which lifecycle walker is running (`onNode…` dispatches to
`onElement…` / `onComponent…` of the same node before descending). -/
inductive LCall where
  | node
  | element
  | component
deriving Repr, DecidableEq

/-- Fuelled walker for `Lifecycle.onNodeDetached` / `onElementDetached` /
`onComponentDetached`. -/
def detachedAux : Nat → LCall → VNode → List LEvent
  | 0, _, _ => []
  | fuel + 1, .node, n =>
      if n.isElement then detachedAux fuel .element n
      else if n.isComponent && !n.isRoot then detachedAux fuel .component n
      else []
  | fuel + 1, .element, n =>
      (match n.children with
       | some cs => cs.flatMap (fun c => detachedAux fuel .node c)
       | Option.none => [])
  | fuel + 1, .component, n =>
      (if n.isRoot then detachedAux fuel .element n else []) ++
      (match n.content with
       | some c => detachedAux fuel .node c
       | Option.none => []) ++
      (if n.hooks.onDetached then [LEvent.detached n.id] else [])

/-- Fuelled walker for `Lifecycle.onNodeAttached` / `onElementAttached` /
`onComponentAttached` (content first, then the component's own hook). -/
def attachedAux : Nat → LCall → VNode → List LEvent
  | 0, _, _ => []
  | fuel + 1, .node, n =>
      if n.isElement then attachedAux fuel .element n
      else if n.isComponent && !n.isRoot then attachedAux fuel .component n
      else []
  | fuel + 1, .element, n =>
      (match n.children with
       | some cs => cs.flatMap (fun c => attachedAux fuel .node c)
       | Option.none => [])
  | fuel + 1, .component, n =>
      (match n.content with
       | some c => attachedAux fuel .node c
       | Option.none => []) ++
      (if n.hooks.onAttached then [LEvent.attached n.id] else [])

mutual

/-- Fuel bound for the lifecycle walkers: twice the structural size of the
node dominates the recursion depth (at most two same-node steps per level
before descending). -/
def VNode.nsize : VNode → Nat
  | .mk _ _ _ _ _ _ _ _ children content =>
      1 + nsizeChildren children + nsizeContent content

def nsizeChildren : Option (List VNode) → Nat
  | Option.none => 0
  | some cs => nsizeList cs

def nsizeList : List VNode → Nat
  | [] => 0
  | c :: cs => c.nsize + nsizeList cs

def nsizeContent : Option VNode → Nat
  | Option.none => 0
  | some c => c.nsize

end

/-- `Lifecycle.onNodeDetached(node)`: the `onDetached` notification sequence
of a detached subtree. -/
def onNodeDetachedTrace (n : VNode) : List LEvent :=
  detachedAux (2 * n.nsize + 2) .node n

/-- `Lifecycle.onNodeAttached(node)`: the `onAttached` notification sequence
of an attached subtree. -/
def onNodeAttachedTrace (n : VNode) : List LEvent :=
  attachedAux (2 * n.nsize + 2) .node n

/-- `Lifecycle.onRootAttached(root)`: children first, then the root's own
`onAttached`. -/
def onRootAttachedTrace (root : VNode) : List LEvent :=
  (match root.children with
   | some cs => cs.flatMap onNodeAttachedTrace
   | Option.none => []) ++
  (if root.hooks.onAttached then [LEvent.attached root.id] else [])

/-- `Lifecycle.onNodeUpdated(node, prevDescription)`. -/
def onNodeUpdatedTrace (n : VNode) : List LEvent :=
  if n.isComponent then
    (if n.hooks.onUpdated then [LEvent.updated n.id] else [])
  else []

/-- `Lifecycle.afterPatchApplied(patch)`: the hook notifications fired for
one applied patch during the after-update phase. -/
def afterPatchApplied : Patch → List LEvent
  | .initRootComponent root => onRootAttachedTrace root
  | .insertChild node _ _ => onNodeAttachedTrace node
  | .replaceChild child node _ =>
      onNodeDetachedTrace child ++ onNodeAttachedTrace node
  | .setContent node child _ =>
      (match child with
       | some c => onNodeDetachedTrace c
       | Option.none => []) ++ onNodeAttachedTrace node
  | .removeChild child _ _ => onNodeDetachedTrace child
  | .updateNode node _ _ => onNodeUpdatedTrace node
  | _ => []

/-- `Lifecycle.afterUpdate(patches)`: processes the applied patch list in
reverse order. -/
def afterUpdate (patches : List Patch) : List LEvent :=
  patches.reverse.flatMap afterPatchApplied

/-! ## Command dispatcher (`core/dispatcher`)

The command closure installed for every command name.  The mutable state it
reads and writes: the dispatcher mode, the command queue, and the captured
reentrancy counter `level`.  What the synchronous `this.execute(command,
root)` call contributes to the queue (commands dispatched from inside
lifecycle hooks while the dispatcher is in queue mode) is an input of the
step, abstracting the externally-supplied hook behaviour. -/

inductive DispatchMode where
  | queue
  | execute
  | ignore
deriving Repr, DecidableEq

structure DispatcherState (C : Type) where
  mode : DispatchMode
  level : Nat
  queue : List C
deriving Repr

/-- What one invocation of the command closure observably results in. -/
inductive DispatchResult where
  /-- queue mode: the command was pushed and a completion promise returned. -/
  | queued
  /-- ignore mode: the command was dropped (`return false`). -/
  | ignored
  /-- executed; queued commands were found, a deferred flush was scheduled. -/
  | scheduled
  /-- executed with an empty queue (`return true`). -/
  | completed
  /-- executed, and the reentrancy guard threw. -/
  | threw (msg : String)
deriving Repr, DecidableEq

/-- One invocation of `this.commands[name]` (the closure of
`Dispatcher.constructor`).  `enqueued` are the commands pushed onto
`this.queue` by lifecycle hooks during the synchronous `this.execute` call.
On overflow the error is thrown after `level` is reset by the `finally`
block, before the queue is captured and cleared — so the queue survives. -/
def dispatchCommand {C : Type} (s : DispatcherState C) (command : C)
    (enqueued : List C) : DispatchResult × DispatcherState C :=
  match s.mode with
  | .queue => (.queued, { s with queue := s.queue ++ [command] })
  | .ignore => (.ignored, { s with level := 0 })
  | .execute =>
    let queue := s.queue ++ enqueued
    if queue.length != 0 then
      let level := s.level + 1
      if level > 3 then
        (.threw "Too many cycles updating state in lifecycle methods!",
          { s with level := 0, queue := queue })
      else
        (.scheduled, { s with level := level, queue := [] })
    else
      (.completed, { s with level := 0, queue := queue })

/-- The dispatcher state right after construction: execute mode, empty
queue, reentrancy level 0. -/
def initialDispatcherState (C : Type) : DispatcherState C :=
  { mode := .execute, level := 0, queue := [] }

/-! ## Reconciler (`core/reconciler`)

`calculateMoves(source, target, favoredToMove)` computes an edit script
between two key sequences.  Keys are JS strings compared with `Object.is`
and `>` (a linear order); the embedding is generic in a linearly ordered
key type `K`.  The JS mutable array operations `splice(i, 1)` and
`splice(i, 0, x)` (with clamping of out-of-range positions, and `-1`
possibly produced by `indexOf`) are modelled by `jsSpliceRemove` /
`jsSpliceInsert`. -/

/-- A key paired with its original index (`createItem`). -/
structure RItem (K : Type) where
  key : K
  index : Nat
deriving Repr, DecidableEq

/-- An edit-script `Move` (insert / move / remove).  `from_` is an `Int`
because the source computes it with `Array.indexOf`, which yields `-1` on a
miss. -/
inductive MoveOp (K : Type) where
  | insert (item : K) (at_ : Nat)
  | move (item : K) (from_ : Int) (to_ : Nat)
  | remove (item : K) (at_ : Nat)
deriving Repr, DecidableEq

/-- The moved key (`move.item`). -/
def MoveOp.item {K : Type} : MoveOp K → K
  | .insert k _ => k
  | .move k _ _ => k
  | .remove k _ => k

/-- The destination position of a move (`at` for insert/remove, `to` for
move). -/
def MoveOp.atIdx {K : Type} : MoveOp K → Nat
  | .insert _ a => a
  | .move _ _ t => t
  | .remove _ a => a

/-- `items.splice(start, 1)` with JavaScript's index normalization: a
negative `start` counts from the end (clamped at 0); a `start` beyond the
end deletes nothing. -/
def jsSpliceRemove {α : Type} (items : List α) (start : Int) : List α :=
  let s : Nat := if start < 0 then (max ((items.length : Int) + start) 0).toNat
    else start.toNat
  items.eraseIdx s

/-- `items.splice(start, 0, x)` with JavaScript's index normalization: a
negative `start` counts from the end (clamped at 0); a `start` beyond the
end appends. -/
def jsSpliceInsert {α : Type} (items : List α) (start : Int) (x : α) : List α :=
  let s : Nat := if start < 0 then (max ((items.length : Int) + start) 0).toNat
    else min start.toNat items.length
  items.insertIdx s x

/-- `move.make(items)`: the mutation each `Move` variant performs on the
simulated child array. -/
def MoveOp.make {K : Type} : MoveOp K → List K → List K
  | .insert item a, items => jsSpliceInsert items (a : Int) item
  | .move item f t, items => jsSpliceInsert (jsSpliceRemove items f) (t : Int) item
  | .remove _ a, items => jsSpliceRemove items (a : Int)

/-- `Array.indexOf`: the first index holding the item, `-1` when absent. -/
def jsIndexOf {K : Type} [DecidableEq K] (items : List K) (x : K) : Int :=
  match items.findIdx? (fun y => y = x) with
  | some i => (i : Int)
  | none => -1

/-- Fuelled worker for the two-pointer merge scan of
`Reconciler.calculateMoves` (the `while (before.length || after.length)`
loop over the two key-sorted item lists); returns the `removed` and
`inserted` item lists.  Each iteration shortens `before ++ after`, so fuel
`before.length + after.length` always suffices. -/
def scanDiffAux {K : Type} [LinearOrder K] :
    Nat → List (RItem K) → List (RItem K) → List (RItem K) × List (RItem K)
  | 0, before, after => (before, after)
  | _ + 1, [], after => ([], after)
  | _ + 1, b :: bs, [] => (b :: bs, [])
  | fuel + 1, b :: bs, a :: as_ =>
    if a.key = b.key then scanDiffAux fuel bs as_
    else if a.key > b.key then
      let r := scanDiffAux fuel bs (a :: as_)
      (b :: r.1, r.2)
    else
      let r := scanDiffAux fuel (b :: bs) as_
      (r.1, a :: r.2)

/-- The merge scan at its dominating fuel. -/
def scanDiff {K : Type} [LinearOrder K] (before after : List (RItem K)) :
    List (RItem K) × List (RItem K) :=
  scanDiffAux (before.length + after.length) before after

/-- `moveItemIfNeeded(index)` from `calculateIndexChanges`: when the item at
`index` in the working array differs from the target's, relocate it there,
extending the move list and updating the working array. -/
def moveItemIfNeeded {K : Type} [DecidableEq K] (target : List K)
    (st : List (MoveOp K) × List K) (index : Nat) : List (MoveOp K) × List K :=
  match target[index]? with
  | Option.none => st
  | some item =>
    if st.2[index]? ≠ some item then
      let f := jsIndexOf st.2 item
      let mv := MoveOp.move item f index
      (st.1 ++ [mv], mv.make st.2)
    else st

/-- `calculateIndexChanges(source, target, reversed)`: a single
index-alignment scan over all target positions (left-to-right, or
right-to-left when `reversed`), returning the emitted moves and the final
working array (`moves.result`). -/
def calculateIndexChanges {K : Type} [DecidableEq K] (source target : List K)
    (reversed : Bool) : List (MoveOp K) × List K :=
  let idxs := if reversed then (List.range target.length).reverse
    else List.range target.length
  idxs.foldl (moveItemIfNeeded target) ([], source)

/-- The comparator key order: `comparator(a, b)` returns `0` iff
`Object.is(a.key, b.key)` and otherwise the sign of `a.key > b.key`; sorting
with it equals sorting by `key ≤ key` (stably). -/
def sortByKey {K : Type} [LinearOrder K] (items : List (RItem K)) : List (RItem K) :=
  items.insertionSort (fun a b => a.key ≤ b.key)

/-- `sort(sortByIndex)`: sort items by original index (ascending). -/
def sortByIndex {K : Type} (items : List (RItem K)) : List (RItem K) :=
  items.insertionSort (fun a b => a.index ≤ b.index)

/-- `Reconciler.calculateMoves(source, target, favoredToMove)`.  Returns the
pair of the emitted move list and its `result` property (the simulated
final array).  The phases follow the source: key-sorted merge scan;
removals by descending original index; insertions by ascending original
index; early return when the working copy already equals the target
(`Diff.deepEqual` on two key arrays is elementwise key equality); otherwise
the forward alignment scan, the conditional reversed alignment scan, and
the final selection.  A present `favoredToMove` key models a truthy one. -/
def calculateMoves {K : Type} [LinearOrder K] (source target : List K)
    (favoredToMove : Option K) : List (MoveOp K) × List K :=
  let before := sortByKey (source.mapIdx (fun index key => RItem.mk key index))
  let after := sortByKey (target.mapIdx (fun index key => RItem.mk key index))
  let scanned := scanDiff before after
  let removed := (sortByIndex scanned.1).reverse
  let inserted := sortByIndex scanned.2
  let st1 := removed.foldl
    (fun (st : List (MoveOp K) × List K) item =>
      let mv := MoveOp.remove item.key item.index
      (st.1 ++ [mv], mv.make st.2)) ([], source)
  let st2 := inserted.foldl
    (fun (st : List (MoveOp K) × List K) item =>
      let mv := MoveOp.insert item.key item.index
      (st.1 ++ [mv], mv.make st.2)) st1
  if st2.2 = target then st2
  else
    let defaultMoves := calculateIndexChanges st2.2 target false
    let consultAlternative : Bool :=
      defaultMoves.1.length > 1 ||
        (match favoredToMove, defaultMoves.1 with
         | some fav, [mv] => mv.item ≠ fav
         | _, _ => false)
    if consultAlternative then
      let alternativeMoves := calculateIndexChanges st2.2 target true
      if alternativeMoves.1.length ≤ defaultMoves.1.length then
        (st2.1 ++ alternativeMoves.1, alternativeMoves.2)
      else (st2.1 ++ defaultMoves.1, defaultMoves.2)
    else (st2.1 ++ defaultMoves.1, defaultMoves.2)

/-- The items the merge scan marks as removed, in emission order (sorted by
descending original source index) — the removal phase of `calculateMoves`. -/
def removalItems {K : Type} [LinearOrder K] (source target : List K) : List (RItem K) :=
  (sortByIndex (scanDiff
    (sortByKey (source.mapIdx (fun index key => RItem.mk key index)))
    (sortByKey (target.mapIdx (fun index key => RItem.mk key index)))).1).reverse

/-- The items the merge scan marks as inserted, in emission order (sorted by
ascending original target index) — the insertion phase of `calculateMoves`. -/
def insertionItems {K : Type} [LinearOrder K] (source target : List K) : List (RItem K) :=
  sortByIndex (scanDiff
    (sortByKey (source.mapIdx (fun index key => RItem.mk key index)))
    (sortByKey (target.mapIdx (fun index key => RItem.mk key index)))).2

/-- The working copy of the source after the removal and insertion phases of
`calculateMoves` (the `result` array before any alignment move). -/
def afterInsertRemove {K : Type} [LinearOrder K] (source target : List K) : List K :=
  (insertionItems source target).foldl
    (fun (res : List K) item => (MoveOp.insert item.key item.index).make res)
    ((removalItems source target).foldl
      (fun (res : List K) item => (MoveOp.remove item.key item.index).make res) source)

/-- The alignment move list `calculateMoves` settles on: empty when the
post-insert/remove working copy already equals the target; otherwise the
forward scan's moves, except that the reversed scan is consulted when the
forward scan produced more than one move or a single move of an item other
than the truthy favored key, and its moves are preferred when not longer. -/
def chosenAlignmentMoves {K : Type} [LinearOrder K] (source target : List K)
    (favoredToMove : Option K) : List (MoveOp K) :=
  if afterInsertRemove source target = target then []
  else
    let defaultMoves :=
      calculateIndexChanges (afterInsertRemove source target) target false
    let consultAlternative : Bool :=
      defaultMoves.1.length > 1 ||
        (match favoredToMove, defaultMoves.1 with
         | some fav, [mv] => mv.item ≠ fav
         | _, _ => false)
    if consultAlternative then
      let alternativeMoves :=
        calculateIndexChanges (afterInsertRemove source target) target true
      if alternativeMoves.1.length ≤ defaultMoves.1.length then
        alternativeMoves.1
      else defaultMoves.1
    else defaultMoves.1

/-! ## Sample values used by concrete witnesses and counterexamples -/

/-- A sample root node. -/
def exRoot : VNode :=
  .mk 0 .root (.comment "root") Option.none Option.none (some 100) true
    Hooks.none Option.none Option.none

/-- A sample displaced component defining `onDetached`. -/
def exChild : VNode :=
  .mk 1 .component (.comment "old") Option.none (some 3) Option.none true
    ⟨false, false, false, false, true, false⟩ Option.none Option.none

/-- A sample replacement component defining `onAttached`. -/
def exNode : VNode :=
  .mk 2 .component (.comment "new") Option.none (some 3) Option.none true
    ⟨false, true, false, false, false, false⟩ Option.none Option.none

/-- A sample parent element. -/
def exParent : VNode :=
  .mk 3 .element (.element "div" Option.none Option.none Option.none Option.none
      Option.none Option.none Option.none Option.none Option.none)
    Option.none Option.none (some 101) true Hooks.none Option.none Option.none

/-- A sample component whose stored description is the comment `"c"`, with
content present. -/
def exComponent : VNode :=
  .mk 4 .component (.comment "c") Option.none (some 3) Option.none true
    Hooks.none Option.none (some exChild)

/-- A sample component without content. -/
def exEmptyComponent : VNode :=
  .mk 5 .component (.comment "c") Option.none (some 3) Option.none true
    Hooks.none Option.none Option.none

/-! # Theorems -/

/-! ### C10 — update-node frame property -/

/-- C10: applying an update-node patch assigns the new description to the
node's description field and modifies nothing else: identity, kind, key,
parent link, render-target handle, initialization flag, hooks, child list
and content are all unchanged. -/
theorem updateNode_apply_frame (n : VNode) (d : Description) :
    (updateNodeApply d n).description = d ∧
    (updateNodeApply d n).id = n.id ∧
    (updateNodeApply d n).kind = n.kind ∧
    (updateNodeApply d n).key = n.key ∧
    (updateNodeApply d n).parentRef = n.parentRef ∧
    (updateNodeApply d n).ref = n.ref ∧
    (updateNodeApply d n).isInitialized = n.isInitialized ∧
    (updateNodeApply d n).hooks = n.hooks ∧
    (updateNodeApply d n).children = n.children ∧
    (updateNodeApply d n).content = n.content := by
  cases n
  simp [updateNodeApply, VNode.description, VNode.id, VNode.kind, VNode.key,
    VNode.parentRef, VNode.ref, VNode.isInitialized, VNode.hooks,
    VNode.children, VNode.content]

/-! ### C4 — reentrancy guard -/

/-- C4: starting from a fresh execute-mode dispatcher state, when commands
queued during execution cause cascaded update cycles on four consecutive
dispatches, the first three schedule deferred flushes, the fourth throws the
"Too many cycles" error, the reentrancy counter is reset to zero by the
throw, and a subsequent command still executes (it is not rejected). -/
theorem dispatcher_reentrancy_guard {C : Type} (s0 : DispatcherState C)
    (c1 c2 c3 c4 c5 : C) (q1 q2 q3 q4 q5 : List C)
    (hmode : s0.mode = .execute) (hlevel : s0.level = 0) (hqueue : s0.queue = [])
    (h1 : q1 ≠ []) (h2 : q2 ≠ []) (h3 : q3 ≠ []) (h4 : q4 ≠ []) :
    (dispatchCommand s0 c1 q1).1 = .scheduled ∧
    (dispatchCommand (dispatchCommand s0 c1 q1).2 c2 q2).1 = .scheduled ∧
    (dispatchCommand (dispatchCommand (dispatchCommand s0 c1 q1).2 c2 q2).2
        c3 q3).1 = .scheduled ∧
    (dispatchCommand (dispatchCommand (dispatchCommand
        (dispatchCommand s0 c1 q1).2 c2 q2).2 c3 q3).2 c4 q4).1 =
      .threw "Too many cycles updating state in lifecycle methods!" ∧
    (dispatchCommand (dispatchCommand (dispatchCommand
        (dispatchCommand s0 c1 q1).2 c2 q2).2 c3 q3).2 c4 q4).2.level = 0 ∧
    (dispatchCommand (dispatchCommand (dispatchCommand (dispatchCommand
        (dispatchCommand s0 c1 q1).2 c2 q2).2 c3 q3).2 c4 q4).2 c5 q5).1 =
      .scheduled := by
  obtain ⟨m, l, q⟩ := s0
  simp only at hmode hlevel hqueue
  subst hmode hlevel hqueue
  have e1 : q1.length ≠ 0 := by simpa using h1
  have e2 : q2.length ≠ 0 := by simpa using h2
  have e3 : q3.length ≠ 0 := by simpa using h3
  have e4 : (q4.length = 0) = False := by simpa using h4
  simp [dispatchCommand, e1, e2, e3, e4, List.length_append]

/-- C4 witness: a concrete run of the guard at `C := Nat`. -/
theorem dispatcher_reentrancy_guard_witness :
    (dispatchCommand (dispatchCommand (dispatchCommand
        (dispatchCommand (initialDispatcherState Nat) 1 [10]).2 2 [20]).2
        3 [30]).2 4 [40]).1 =
      .threw "Too many cycles updating state in lifecycle methods!" ∧
    (dispatchCommand (dispatchCommand (dispatchCommand
        (dispatchCommand (initialDispatcherState Nat) 1 [10]).2 2 [20]).2
        3 [30]).2 4 [40]).2.level = 0 := by
  have h := dispatcher_reentrancy_guard (initialDispatcherState Nat)
    1 2 3 4 5 [10] [20] [30] [40] []
    rfl rfl rfl (by decide) (by decide) (by decide) (by decide)
  exact ⟨h.2.2.2.1, h.2.2.2.2.1⟩

/-! ### C1 — diff idempotence -/

/-- C1 counterexample: with an absent (falsy) previous state, diffing two
deep-equal states does not yield an empty patch list — the init-root patch
has already been added before the deep-equality early return. -/
theorem diff_idempotence_counterexample :
    deepEqual .null .null = true ∧
    Diff.calculate exRoot .null .null [] = [Patch.initRootComponent exRoot] ∧
    Diff.calculate exRoot .null .null [] ≠ [] := by
  refine ⟨rfl, rfl, ?_⟩
  simp [Diff.calculate, deepEqual, deepEqualAux, jsIs, jsTruthy, JSVal.jsize]

/-- C1 (amended): for every root and every pair of deep-equal states
(including the same state), the diff yields the empty patch list when the
previous state is truthy, and exactly the single init-root-component patch
when the previous state is absent/falsy — regardless of what the re-render
continuation would contribute. -/
theorem diff_calculate_idempotent (root : VNode) (s s' : JSVal)
    (rest : List Patch) (h : deepEqual s s' = true) :
    Diff.calculate root s s' rest =
      if jsTruthy s then [] else [Patch.initRootComponent root] := by
  unfold Diff.calculate
  rw [h]
  by_cases ht : jsTruthy s <;> simp [ht]

/-- C1 witness: a truthy state diffed against itself yields no patches; a
falsy one yields the init-root patch only. -/
theorem diff_calculate_idempotent_witness :
    deepEqual (.number 1) (.number 1) = true ∧
    Diff.calculate exRoot (.number 1) (.number 1) [] = [] ∧
    deepEqual .undefined .undefined = true ∧
    Diff.calculate exRoot .undefined .undefined [] =
      [Patch.initRootComponent exRoot] := by
  refine ⟨rfl, ?_, rfl, ?_⟩
  · have h := diff_calculate_idempotent exRoot (.number 1) (.number 1) [] rfl
    simpa using h
  · have h := diff_calculate_idempotent exRoot .undefined .undefined [] rfl
    simpa using h

/-! ### C7 — render memoization -/

/-- C7: for an initialized component whose stored description deep-equals
the incoming one, the component diff returns without invoking the render
function and without emitting any patch (for any render oracle, any child
diff continuation and any node factory). -/
theorem componentPatches_memoization
    (render : VNode → Description → Description)
    (childPatches : VNode → Description → Except String (List DiffEvent))
    (createFromDescription : Description → VNode)
    (component : VNode) (description : Description)
    (hinit : component.isInitialized = true)
    (heq : descEq component.description description = true) :
    componentPatches render childPatches createFromDescription
      component description = .ok [] := by
  unfold componentPatches
  rw [hinit, heq]
  simp

/-- C7 witness: a concrete initialized component with a deep-equal incoming
description skips the render pass. -/
theorem componentPatches_memoization_witness :
    exComponent.isInitialized = true ∧
    descEq exComponent.description (.comment "c") = true ∧
    componentPatches (fun _ _ => .comment "rendered") (fun _ _ => .ok [])
      (fun _ => exNode) exComponent (.comment "c") = .ok [] := by
  refine ⟨rfl, rfl, ?_⟩
  exact componentPatches_memoization _ _ _ _ _ rfl rfl

/-! ### C8 — component content transitions -/

/-- C8: during a component content diff — if both the existing content node
and the new content description are absent, return without error or patch;
if exactly one of them is absent, throw "Invalid component state!" and emit
nothing; if both are present and compatible, skip when deep-equal and
otherwise diff in place through the child-diff continuation; if both are
present and incompatible, build a fresh subtree with the node factory and
emit the single set-content patch. -/
theorem componentContentPatches_transitions
    (childPatches : VNode → Description → Except String (List DiffEvent))
    (createFromDescription : Description → VNode)
    (parent : VNode) (d : Description) :
    (parent.content = Option.none →
      componentContentPatches childPatches createFromDescription
          Option.none parent = .ok [] ∧
      componentContentPatches childPatches createFromDescription
          (some d) parent = .error "Invalid component state!") ∧
    (∀ c, parent.content = some c →
      componentContentPatches childPatches createFromDescription
          Option.none parent = .error "Invalid component state!" ∧
      (c.description.isCompatible d = true →
        componentContentPatches childPatches createFromDescription
            (some d) parent =
          (if descEq c.description d then .ok [] else childPatches c d)) ∧
      (c.description.isCompatible d = false →
        componentContentPatches childPatches createFromDescription
            (some d) parent =
          .ok [DiffEvent.patch
            (Patch.mkSetContent (createFromDescription d) parent)])) := by
  constructor
  · intro hnone
    unfold componentContentPatches
    rw [hnone]
    exact ⟨rfl, rfl⟩
  · intro c hsome
    refine ⟨?_, ?_, ?_⟩
    · unfold componentContentPatches
      rw [hsome]
    · intro hcompat
      unfold componentContentPatches
      rw [hsome]
      simp [hcompat]
    · intro hincompat
      unfold componentContentPatches
      rw [hsome]
      simp [hincompat]

/-- C8 witness: concrete runs of all four transitions. -/
theorem componentContentPatches_transitions_witness :
    componentContentPatches (fun _ _ => .ok []) (fun _ => exNode)
        Option.none exEmptyComponent = .ok [] ∧
    componentContentPatches (fun _ _ => .ok []) (fun _ => exNode)
        (some (.comment "x")) exEmptyComponent =
      .error "Invalid component state!" ∧
    componentContentPatches (fun _ _ => .ok []) (fun _ => exNode)
        Option.none exComponent = .error "Invalid component state!" ∧
    componentContentPatches (fun _ _ => .ok []) (fun _ => exNode)
        (some (.element "div" Option.none Option.none Option.none Option.none
          Option.none Option.none Option.none Option.none Option.none))
        exComponent =
      .ok [DiffEvent.patch (Patch.mkSetContent exNode exComponent)] := by
  have h1 := (componentContentPatches_transitions
    (fun _ _ => .ok []) (fun _ => exNode) exEmptyComponent (.comment "x")).1 rfl
  have h2 := (componentContentPatches_transitions
    (fun _ _ => .ok []) (fun _ => exNode) exComponent
    (.element "div" Option.none Option.none Option.none Option.none
      Option.none Option.none Option.none Option.none Option.none)).2
    exChild rfl
  exact ⟨h1.1, h1.2, h2.1, h2.2.2 rfl⟩

/-! ### C2 — after-update ordering for replacement -/

/-- Every event the detach walker emits is an `onDetached` notification. -/
theorem detachedAux_all_detached (fuel : Nat) :
    ∀ (call : LCall) (n : VNode) (e : LEvent), e ∈ detachedAux fuel call n →
      ∃ i, e = .detached i := by
  induction fuel with
  | zero => intro call n e he; simp [detachedAux] at he
  | succ fuel ih =>
    intro call n e he
    match call with
    | .node =>
      rw [detachedAux] at he
      by_cases h1 : n.isElement
      · exact ih .element n e (by simpa [h1] using he)
      · by_cases h2 : n.isComponent && !n.isRoot
        · exact ih .component n e (by simpa [h1, h2] using he)
        · simp [h1, h2] at he
    | .element =>
      rw [detachedAux] at he
      match hc : n.children with
      | Option.none => simp [hc] at he
      | some cs =>
        simp only [hc, List.mem_flatMap] at he
        obtain ⟨c, _, hec⟩ := he
        exact ih .node c e hec
    | .component =>
      rw [detachedAux] at he
      simp only [List.mem_append] at he
      rcases he with (he | he) | he
      · by_cases hr : n.isRoot
        · exact ih .element n e (by simpa [hr] using he)
        · simp [hr] at he
      · match hc : n.content with
        | Option.none => simp [hc] at he
        | some c => exact ih .node c e (by simpa [hc] using he)
      · by_cases hh : n.hooks.onDetached
        · simp [hh] at he; exact ⟨n.id, he⟩
        · simp [hh] at he

/-- Every event the attach walker emits is an `onAttached` notification. -/
theorem attachedAux_all_attached (fuel : Nat) :
    ∀ (call : LCall) (n : VNode) (e : LEvent), e ∈ attachedAux fuel call n →
      ∃ i, e = .attached i := by
  induction fuel with
  | zero => intro call n e he; simp [attachedAux] at he
  | succ fuel ih =>
    intro call n e he
    match call with
    | .node =>
      rw [attachedAux] at he
      by_cases h1 : n.isElement
      · exact ih .element n e (by simpa [h1] using he)
      · by_cases h2 : n.isComponent && !n.isRoot
        · exact ih .component n e (by simpa [h1, h2] using he)
        · simp [h1, h2] at he
    | .element =>
      rw [attachedAux] at he
      match hc : n.children with
      | Option.none => simp [hc] at he
      | some cs =>
        simp only [hc, List.mem_flatMap] at he
        obtain ⟨c, _, hec⟩ := he
        exact ih .node c e hec
    | .component =>
      rw [attachedAux] at he
      simp only [List.mem_append] at he
      rcases he with he | he
      · match hc : n.content with
        | Option.none => simp [hc] at he
        | some c => exact ih .node c e (by simpa [hc] using he)
      · by_cases hh : n.hooks.onAttached
        · simp [hh] at he; exact ⟨n.id, he⟩
        · simp [hh] at he

/-- C2 counterexample: a diff cycle whose patch list is a single
replace-child patch.  In the after-patch-application phase the displaced
component's `onDetached` fires first (index 0) and the replacement's
`onAttached` second (index 1) — not after it, as the claim states. -/
theorem afterUpdate_replace_order_counterexample :
    afterUpdate [Patch.replaceChild exChild exNode exParent] =
      [LEvent.detached 1, LEvent.attached 2] := by
  decide

/-- C2 (amended): for every diff cycle whose patch list contains a
replace-child patch, or a set-content patch displacing existing content, the
after-patch-application phase processes that patch by emitting the entire
`onDetached` notification sequence of the displaced subtree immediately
before (not after) the entire `onAttached` sequence of the replacement
subtree. -/
theorem afterUpdate_replace_detach_before_attach (patches : List Patch)
    (child node parent : VNode)
    (hp : Patch.replaceChild child node parent ∈ patches ∨
      Patch.setContent node (some child) parent ∈ patches) :
    ∃ pre post, afterUpdate patches =
      pre ++ onNodeDetachedTrace child ++ onNodeAttachedTrace node ++ post ∧
      (∀ e ∈ onNodeDetachedTrace child, ∃ i, e = .detached i) ∧
      (∀ e ∈ onNodeAttachedTrace node, ∃ i, e = .attached i) := by
  have hall : (∀ e ∈ onNodeDetachedTrace child, ∃ i, e = LEvent.detached i) ∧
      ∀ e ∈ onNodeAttachedTrace node, ∃ i, e = LEvent.attached i := by
    constructor
    · intro e he; exact detachedAux_all_detached _ .node child e he
    · intro e he; exact attachedAux_all_attached _ .node node e he
  rcases hp with hp | hp
  · obtain ⟨s, t, rfl⟩ := List.append_of_mem hp
    refine ⟨t.reverse.flatMap afterPatchApplied,
      s.reverse.flatMap afterPatchApplied, ?_, hall.1, hall.2⟩
    simp [afterUpdate, List.reverse_append, List.flatMap_append,
      afterPatchApplied, List.append_assoc]
  · obtain ⟨s, t, rfl⟩ := List.append_of_mem hp
    refine ⟨t.reverse.flatMap afterPatchApplied,
      s.reverse.flatMap afterPatchApplied, ?_, hall.1, hall.2⟩
    simp [afterUpdate, List.reverse_append, List.flatMap_append,
      afterPatchApplied, List.append_assoc]

/-- C2 witness: the amended ordering at the concrete one-patch cycle. -/
theorem afterUpdate_replace_detach_before_attach_witness :
    (Patch.replaceChild exChild exNode exParent ∈
        [Patch.replaceChild exChild exNode exParent] ∨
      Patch.setContent exNode (some exChild) exParent ∈
        [Patch.replaceChild exChild exNode exParent]) ∧
    ∃ pre post,
      afterUpdate [Patch.replaceChild exChild exNode exParent] =
        pre ++ onNodeDetachedTrace exChild ++ onNodeAttachedTrace exNode ++ post ∧
      (∀ e ∈ onNodeDetachedTrace exChild, ∃ i, e = .detached i) ∧
      (∀ e ∈ onNodeAttachedTrace exNode, ∃ i, e = .attached i) := by
  refine ⟨Or.inl (by simp), ?_⟩
  exact afterUpdate_replace_detach_before_attach
    [Patch.replaceChild exChild exNode exParent] exChild exNode exParent
    (Or.inl (by simp))

/-! ### C3 — map-diff emission order -/

/-- The emission contract of a map diff: the output is the per-key added
patches, then the per-key removed patches, then the per-key changed patches,
where added / removed / changed are the three pairwise disjoint key sets
computed from key membership and the map's `changed` comparison. -/
def MapDiffSpec {α β : Type} (current next : List (String × α)) (dflt : α)
    (changedTest : α → α → Bool) (mkAdd mkRemove mkChange : String → β)
    (out : List β) : Prop :=
  ∃ added removed changed : List String,
    out = added.map mkAdd ++ removed.map mkRemove ++ changed.map mkChange ∧
    (∀ k, k ∈ added ↔ k ∈ objKeys next ∧ k ∉ objKeys current) ∧
    (∀ k, k ∈ removed ↔ k ∈ objKeys current ∧ k ∉ objKeys next) ∧
    (∀ k, k ∈ changed ↔ k ∈ objKeys current ∧ k ∈ objKeys next ∧
      changedTest (mapGet dflt current k) (mapGet dflt next k) = true) ∧
    (∀ k ∈ added, k ∉ removed ∧ k ∉ changed) ∧
    (∀ k ∈ removed, k ∉ changed)

/-- The three filters every map diff computes satisfy the emission
contract. -/
theorem mapDiff_filters_spec {α β : Type} (current next : List (String × α))
    (dflt : α) (changedTest : α → α → Bool) (mkAdd mkRemove mkChange : String → β) :
    MapDiffSpec current next dflt changedTest mkAdd mkRemove mkChange
      (((objKeys next).filter (fun k => !((objKeys current).contains k))).map mkAdd ++
        ((objKeys current).filter (fun k => !((objKeys next).contains k))).map mkRemove ++
        ((objKeys current).filter (fun k => (objKeys next).contains k &&
          changedTest (mapGet dflt current k) (mapGet dflt next k))).map mkChange) := by
  refine ⟨_, _, _, rfl, ?_, ?_, ?_, ?_, ?_⟩
  · intro k; simp [List.mem_filter]
  · intro k; simp [List.mem_filter]
  · intro k; simp [List.mem_filter, and_assoc]
  · intro k hk; simp only [List.mem_filter] at hk ⊢; simp_all
  · intro k hk; simp only [List.mem_filter] at hk ⊢; simp_all

/-- C3 (amended): every map diff (attributes, style, dataset, direct
properties, listeners) computes three pairwise disjoint key sets — added (in
next, not in current), removed (in current, not in next), changed (in both
with the map's own value comparison reporting a difference: strict identity
`!==` for attributes, style properties and dataset entries; deep equality
for direct properties; identity refined by the recorded listener source for
listeners) — and emits one patch per key: all added patches first, then all
removed, then all changed. -/
theorem mapDiff_emission (current next : List (String × JSVal))
    (lcurrent lnext : List (String × Listener)) (target : Option VNode)
    (isCustom : Bool) :
    MapDiffSpec current next .undefined (fun a b => !(jsIs a b))
      (fun attr => Patch.setAttribute attr (mapGet .undefined next attr) target isCustom)
      (fun attr => Patch.removeAttribute attr target isCustom)
      (fun attr => Patch.setAttribute attr (mapGet .undefined next attr) target isCustom)
      (attributePatches current next target isCustom) ∧
    MapDiffSpec current next .undefined (fun a b => !(jsIs a b))
      (fun prop => Patch.setStyleProperty prop (mapGet .undefined next prop) target)
      (fun prop => Patch.removeStyleProperty prop target)
      (fun prop => Patch.setStyleProperty prop (mapGet .undefined next prop) target)
      (stylePatches current next target) ∧
    MapDiffSpec current next .undefined (fun a b => !(jsIs a b))
      (fun attr => Patch.setDataAttribute attr (mapGet .undefined next attr) target)
      (fun attr => Patch.removeDataAttribute attr target)
      (fun attr => Patch.setDataAttribute attr (mapGet .undefined next attr) target)
      (datasetPatches current next target) ∧
    MapDiffSpec current next .undefined (fun a b => !(deepEqual a b))
      (fun key => Patch.setProperty key (mapGet .undefined next key) target)
      (fun key => Patch.deleteProperty key target)
      (fun key => Patch.setProperty key (mapGet .undefined next key) target)
      (propertiesPatches current next target) ∧
    MapDiffSpec lcurrent lnext Listener.dflt listenerChanged
      (fun event => Patch.addListener event (mapGet Listener.dflt lnext event) target isCustom)
      (fun event => Patch.removeListener event (mapGet Listener.dflt lcurrent event) target isCustom)
      (fun event => Patch.replaceListener event (mapGet Listener.dflt lcurrent event)
        (mapGet Listener.dflt lnext event) target isCustom)
      (listenerPatches lcurrent lnext target isCustom) :=
  ⟨mapDiff_filters_spec current next .undefined _ _ _ _,
   mapDiff_filters_spec current next .undefined _ _ _ _,
   mapDiff_filters_spec current next .undefined _ _ _ _,
   mapDiff_filters_spec current next .undefined _ _ _ _,
   mapDiff_filters_spec lcurrent lnext Listener.dflt _ _ _ _⟩

/-- C3 counterexample: an attribute key whose current and next values are
deep-equal (but not identical) arrays.  The claim's changed set — computed
by deep equality — is empty, yet the code compares with `!==` and emits a
changed patch for the key. -/
theorem mapDiff_deepEqual_counterexample :
    deepEqual (.arr 1 [.number 1]) (.arr 2 [.number 1]) = true ∧
    attributePatches [("a", .arr 1 [.number 1])] [("a", .arr 2 [.number 1])]
        Option.none false =
      [Patch.setAttribute "a" (.arr 2 [.number 1]) Option.none false] ∧
    attributePatches [("a", .arr 1 [.number 1])] [("a", .arr 2 [.number 1])]
        Option.none false ≠ [] := by
  refine ⟨rfl, rfl, ?_⟩
  have e : attributePatches [("a", .arr 1 [.number 1])] [("a", .arr 2 [.number 1])]
      Option.none false =
      [Patch.setAttribute "a" (.arr 2 [.number 1]) Option.none false] := rfl
  rw [e]
  simp

/-! ### Reconciler: structural lemmas -/

/-- Emission/simulation shape of the removal and insertion folds of
`calculateMoves`: the fold appends one move per item and threads the
simulated array through `make`. -/
theorem foldl_emit_make {K : Type} (f : RItem K → MoveOp K) :
    ∀ (items : List (RItem K)) (ms : List (MoveOp K)) (l : List K),
      items.foldl (fun st item => ((st.1 ++ [f item] : List (MoveOp K)),
          (f item).make st.2)) (ms, l) =
        (ms ++ items.map f, items.foldl (fun acc item => (f item).make acc) l) := by
  intro items
  induction items with
  | nil => intro ms l; simp
  | cons item items ih =>
    intro ms l
    simp only [List.foldl_cons, List.map_cons, ih]
    simp

/-- Emission/simulation shape of an alignment scan fold: it extends the move
list by a suffix consisting solely of `move` operations and its final
working array is the fold of `make` of that suffix. -/
theorem alignFold_sim {K : Type} [DecidableEq K] (target : List K) :
    ∀ (idxs : List Nat) (ms : List (MoveOp K)) (src : List K),
      ∃ suffix : List (MoveOp K),
        idxs.foldl (moveItemIfNeeded target) (ms, src) =
          (ms ++ suffix, suffix.foldl (fun l m => m.make l) src) ∧
        ∀ m ∈ suffix, ∃ k f t, m = MoveOp.move k f t := by
  intro idxs
  induction idxs with
  | nil => intro ms src; exact ⟨[], by simp, by simp⟩
  | cons i idxs ih =>
    intro ms src
    simp only [List.foldl_cons]
    match ht : target[i]? with
    | Option.none =>
      have hstep : moveItemIfNeeded target (ms, src) i = (ms, src) := by
        simp [moveItemIfNeeded, ht]
      rw [hstep]
      exact ih ms src
    | some item =>
      by_cases hs : src[i]? ≠ some item
      · have hstep : moveItemIfNeeded target (ms, src) i =
            (ms ++ [MoveOp.move item (jsIndexOf src item) i],
              (MoveOp.move item (jsIndexOf src item) i).make src) := by
          simp only [moveItemIfNeeded, ht]
          rw [if_pos hs]
        rw [hstep]
        obtain ⟨suffix, heq, hmv⟩ :=
          ih (ms ++ [MoveOp.move item (jsIndexOf src item) i])
            ((MoveOp.move item (jsIndexOf src item) i).make src)
        refine ⟨MoveOp.move item (jsIndexOf src item) i :: suffix, ?_, ?_⟩
        · rw [heq]; simp
        · intro m hm
          rcases List.mem_cons.mp hm with rfl | hm
          · exact ⟨item, jsIndexOf src item, i, rfl⟩
          · exact hmv m hm
      · have hstep : moveItemIfNeeded target (ms, src) i = (ms, src) := by
          simp only [moveItemIfNeeded, ht]
          rw [if_neg hs]
        rw [hstep]
        exact ih ms src

/-- The merge scan returns sublists of its inputs: `removed` is a sublist of
`before`, `inserted` a sublist of `after`. -/
theorem scanDiffAux_sublists {K : Type} [LinearOrder K] (fuel : Nat) :
    ∀ (before after : List (RItem K)),
      List.Sublist (scanDiffAux fuel before after).1 before ∧
      List.Sublist (scanDiffAux fuel before after).2 after := by
  induction fuel with
  | zero =>
    intro before after
    exact ⟨List.Sublist.refl _, List.Sublist.refl _⟩
  | succ fuel ih =>
    intro before after
    match before, after with
    | [], after => simp [scanDiffAux]
    | b :: bs, [] => simp [scanDiffAux]
    | b :: bs, a :: as_ =>
      rw [scanDiffAux]
      by_cases h1 : a.key = b.key
      · simp only [h1, if_true]
        exact ⟨(ih bs as_).1.trans (List.sublist_cons_self b bs),
          (ih bs as_).2.trans (List.sublist_cons_self a as_)⟩
      · by_cases h2 : a.key > b.key
        · simp only [h1, h2, if_false, if_true]
          exact ⟨List.Sublist.cons₂ b (ih bs (a :: as_)).1, (ih bs (a :: as_)).2⟩
        · simp only [h1, h2, if_false]
          exact ⟨(ih (b :: bs) as_).1, List.Sublist.cons₂ a (ih (b :: bs) as_).2⟩

/-- The original indices attached by `mapIdx` are exactly `range`. -/
theorem mapIdx_items_map_index {K : Type} (l : List K) :
    (l.mapIdx (fun index key => RItem.mk key index)).map (fun it => it.index) =
      List.range l.length := by
  simp [List.mapIdx_eq_enum_map, List.map_map, Function.comp]
  exact List.enum_map_fst l

/-- The keys carried by the `mapIdx` items are the original list. -/
theorem mapIdx_items_map_key {K : Type} (l : List K) :
    (l.mapIdx (fun index key => RItem.mk key index)).map (fun it => it.key) = l := by
  simp [List.mapIdx_eq_enum_map, List.map_map, Function.comp]
  exact List.enum_map_snd l

/-- The alignment scan's `result` is the fold of `make` over its emitted
moves, and every emitted move is a `move` operation. -/
theorem calculateIndexChanges_sim {K : Type} [DecidableEq K]
    (src target : List K) (rev : Bool) :
    (calculateIndexChanges src target rev).2 =
      (calculateIndexChanges src target rev).1.foldl (fun l m => m.make l) src ∧
    ∀ m ∈ (calculateIndexChanges src target rev).1, ∃ k f t, m = MoveOp.move k f t := by
  unfold calculateIndexChanges
  obtain ⟨suffix, heq, hmv⟩ := alignFold_sim target
    (if rev then (List.range target.length).reverse else List.range target.length) [] src
  rw [heq]
  simpa using hmv

/-- Phase decomposition of `calculateMoves`: the emitted move list is the
removal moves, then the insertion moves, then some alignment move list
(consisting solely of `move` operations), and the returned `result` array is
the fold of `make` of the alignment moves over the post-insert/remove
working copy. -/
theorem calculateMoves_decomp {K : Type} [LinearOrder K] (source target : List K)
    (favored : Option K) :
    ∃ als : List (MoveOp K),
      (calculateMoves source target favored).1 =
        (removalItems source target).map (fun it => MoveOp.remove it.key it.index) ++
        (insertionItems source target).map (fun it => MoveOp.insert it.key it.index) ++
        als ∧
      (calculateMoves source target favored).2 =
        als.foldl (fun l m => m.make l) (afterInsertRemove source target) ∧
      (∀ m ∈ als, ∃ k f t, m = MoveOp.move k f t) ∧
      ((als = [] ∧ afterInsertRemove source target = target) ∨
        ∃ rev : Bool,
          als = (calculateIndexChanges (afterInsertRemove source target)
            target rev).1 ∧
          (calculateMoves source target favored).2 =
            (calculateIndexChanges (afterInsertRemove source target)
              target rev).2) := by
  have hrm := foldl_emit_make (fun it : RItem K => MoveOp.remove it.key it.index)
    (removalItems source target) [] source
  simp only [List.nil_append] at hrm
  have hins := foldl_emit_make (fun it : RItem K => MoveOp.insert it.key it.index)
    (insertionItems source target)
    ((removalItems source target).map (fun it => MoveOp.remove it.key it.index))
    ((removalItems source target).foldl
      (fun acc it => (MoveOp.remove it.key it.index).make acc) source)
  simp only [calculateMoves]
  rw [show (sortByIndex (scanDiff
      (sortByKey (source.mapIdx (fun index key => RItem.mk key index)))
      (sortByKey (target.mapIdx (fun index key => RItem.mk key index)))).1).reverse =
    removalItems source target from rfl]
  rw [show sortByIndex (scanDiff
      (sortByKey (source.mapIdx (fun index key => RItem.mk key index)))
      (sortByKey (target.mapIdx (fun index key => RItem.mk key index)))).2 =
    insertionItems source target from rfl]
  rw [hrm]
  rw [hins]
  rw [show (insertionItems source target).foldl
      (fun acc it => (MoveOp.insert it.key it.index).make acc)
      ((removalItems source target).foldl
        (fun acc it => (MoveOp.remove it.key it.index).make acc) source) =
    afterInsertRemove source target from rfl]
  simp only [List.nil_append]
  by_cases hr : afterInsertRemove source target = target
  · simp only [hr, if_true]
    exact ⟨[], by simp, by simp [hr], by simp, Or.inl ⟨rfl, trivial⟩⟩
  · simp only [hr, if_false]
    obtain ⟨hd2, hdmv⟩ :=
      calculateIndexChanges_sim (afterInsertRemove source target) target false
    obtain ⟨ha2, hamv⟩ :=
      calculateIndexChanges_sim (afterInsertRemove source target) target true
    by_cases hc : ((calculateIndexChanges (afterInsertRemove source target) target
        false).1.length > 1 ||
      (match favored, (calculateIndexChanges (afterInsertRemove source target) target
          false).1 with
       | some fav, [mv] => mv.item ≠ fav
       | _, _ => false) : Bool)
    · simp only [hc, if_true]
      by_cases hl : (calculateIndexChanges (afterInsertRemove source target)
          target true).1.length ≤
        (calculateIndexChanges (afterInsertRemove source target) target false).1.length
      · simp only [hl, if_true]
        exact ⟨_, by simp, ha2, hamv, Or.inr ⟨true, rfl, rfl⟩⟩
      · simp only [hl, if_false]
        exact ⟨_, by simp, hd2, hdmv, Or.inr ⟨false, rfl, rfl⟩⟩
    · simp only [hc, if_false]
      exact ⟨_, by simp, hd2, hdmv, Or.inr ⟨false, rfl, rfl⟩⟩

/-- Sorting by original index a list of items with pairwise distinct indices
yields strictly increasing indices. -/
theorem sortByIndex_pairwise_lt {K : Type} (items : List (RItem K))
    (h : (items.map (fun it => it.index)).Nodup) :
    (sortByIndex items).Pairwise (fun a b => a.index < b.index) := by
  have hs : (sortByIndex items).Pairwise (fun a b => a.index ≤ b.index) := by
    haveI : IsTotal (RItem K) (fun a b => a.index ≤ b.index) :=
      ⟨fun a b => Nat.le_total _ _⟩
    haveI : IsTrans (RItem K) (fun a b => a.index ≤ b.index) :=
      ⟨fun _ _ _ => Nat.le_trans⟩
    exact List.sorted_insertionSort _ items
  have hperm : (sortByIndex items).Perm items := List.perm_insertionSort _ items
  have hnd : ((sortByIndex items).map (fun it => it.index)).Nodup :=
    ((hperm.map (fun it => it.index)).nodup_iff).mpr h
  have hne : (sortByIndex items).Pairwise (fun a b => a.index ≠ b.index) :=
    List.pairwise_map.mp hnd
  exact (hs.and hne).imp (fun hab => Nat.lt_of_le_of_ne hab.1 hab.2)

/-- The items attached to a key list have pairwise distinct original
indices, and so does any sublist of any permutation of them. -/
theorem items_indices_nodup {K : Type} [LinearOrder K] (l : List K)
    (sub : List (RItem K))
    (hsub : List.Sublist sub
      (sortByKey (l.mapIdx (fun index key => RItem.mk key index)))) :
    (sub.map (fun it => it.index)).Nodup := by
  have h0 : ((l.mapIdx (fun index key => RItem.mk key index)).map
      (fun it => it.index)).Nodup := by
    rw [mapIdx_items_map_index]
    exact List.nodup_range _
  have hperm : (sortByKey (l.mapIdx (fun index key => RItem.mk key index))).Perm
      (l.mapIdx (fun index key => RItem.mk key index)) :=
    List.perm_insertionSort _ _
  have h1 : ((sortByKey (l.mapIdx (fun index key => RItem.mk key index))).map
      (fun it => it.index)).Nodup :=
    ((hperm.map (fun it => it.index)).nodup_iff).mpr h0
  exact (hsub.map (fun it => it.index)).nodup h1

/-- C5: for every pair of key sequences and optional favored key,
`calculateMoves` returns the concatenation of all removal moves, then all
insertion moves, then the chosen alignment moves; the removal moves are
emitted in strictly decreasing order of original source index, the insertion
moves in strictly ascending order of original target index, and the
alignment moves are all `move` operations. -/
theorem calculateMoves_structure {K : Type} [LinearOrder K]
    (source target : List K) (favored : Option K) :
    ∃ rs is_ als : List (MoveOp K),
      (calculateMoves source target favored).1 = rs ++ is_ ++ als ∧
      (∀ m ∈ rs, ∃ k a, m = MoveOp.remove k a) ∧
      rs.Pairwise (fun m m' => m.atIdx > m'.atIdx) ∧
      (∀ m ∈ is_, ∃ k a, m = MoveOp.insert k a) ∧
      is_.Pairwise (fun m m' => m.atIdx < m'.atIdx) ∧
      (∀ m ∈ als, ∃ k f t, m = MoveOp.move k f t) := by
  obtain ⟨als, h1, _, hmv, _⟩ := calculateMoves_decomp source target favored
  refine ⟨(removalItems source target).map (fun it => MoveOp.remove it.key it.index),
    (insertionItems source target).map (fun it => MoveOp.insert it.key it.index),
    als, h1, ?_, ?_, ?_, ?_, hmv⟩
  · intro m hm
    obtain ⟨it, _, rfl⟩ := List.mem_map.mp hm
    exact ⟨it.key, it.index, rfl⟩
  · rw [List.pairwise_map]
    have hlt : (sortByIndex (scanDiff
        (sortByKey (source.mapIdx (fun index key => RItem.mk key index)))
        (sortByKey (target.mapIdx (fun index key => RItem.mk key index)))).1).Pairwise
        (fun a b => a.index < b.index) := by
      apply sortByIndex_pairwise_lt
      exact items_indices_nodup source _ (scanDiffAux_sublists _ _ _).1
    have := List.pairwise_reverse.mpr hlt
    exact this.imp (fun h => h)
  · intro m hm
    obtain ⟨it, _, rfl⟩ := List.mem_map.mp hm
    exact ⟨it.key, it.index, rfl⟩
  · rw [List.pairwise_map]
    apply sortByIndex_pairwise_lt
    exact items_indices_nodup target _ (scanDiffAux_sublists _ _ _).2

/-- `Move.remove(key, at).make` is plain index erasure (the index is a
non-negative original array index). -/
theorem make_remove_eq {K : Type} (k : K) (i : Nat) (l : List K) :
    (MoveOp.remove k i).make l = l.eraseIdx i := by
  have h : ¬((i : Int) < 0) := by omega
  have h2 : ((i : Int)).toNat = i := rfl
  simp [MoveOp.make, jsSpliceRemove, h, h2]

/-- A JS `splice(start, 0, x)` always inserts `x` somewhere: the result is a
permutation of `x :: items`. -/
theorem jsSpliceInsert_perm {α : Type} (items : List α) (start : Int) (x : α) :
    (jsSpliceInsert items start x).Perm (x :: items) := by
  unfold jsSpliceInsert
  apply List.perm_insertIdx
  split
  · exact Int.toNat_le.mpr (by omega)
  · exact Nat.min_le_right _ _

/-- A list whose position `i` holds `a` is a permutation of `a` consed onto
the list with position `i` erased. -/
theorem perm_cons_eraseIdx_of_getElem? {α : Type} {l : List α} {i : Nat} {a : α}
    (h : l[i]? = some a) : l.Perm (a :: l.eraseIdx i) := by
  have hi : i < l.length := by
    by_contra hge
    rw [List.getElem?_eq_none (by omega)] at h
    exact Option.noConfusion h
  have ha : l[i] = a := by
    have := List.getElem?_eq_getElem hi
    rw [this] at h
    exact Option.some.inj h
  have hdecomp : l = l.take i ++ a :: l.drop (i + 1) := by
    conv_lhs => rw [← List.take_append_drop i l]
    congr 1
    rw [← ha]
    exact (List.getElem_cons_drop l i hi).symm
  rw [List.eraseIdx_eq_take_drop_succ]
  conv_lhs => rw [hdecomp]
  exact List.perm_middle

/-- Removal-phase permutation: folding the removal moves (strictly
descending original indices, each index holding the recorded key) removes
exactly the recorded keys. -/
theorem removal_fold_perm {K : Type} :
    ∀ (items : List (RItem K)) (acc : List K),
      (items.map (fun it => it.index)).Pairwise (· > ·) →
      (∀ it ∈ items, acc[it.index]? = some it.key) →
      ((items.foldl (fun res it => (MoveOp.remove it.key it.index).make res) acc) ++
        items.map (fun it => it.key)).Perm acc := by
  intro items
  induction items with
  | nil => intro acc _ _; simp
  | cons it rest ih =>
    intro acc hpair hget
    simp only [List.map_cons, List.pairwise_cons] at hpair
    have hacc : acc[it.index]? = some it.key := hget it (List.mem_cons_self it rest)
    have hstep : (MoveOp.remove it.key it.index).make acc = acc.eraseIdx it.index :=
      make_remove_eq _ _ _
    have hrest : ∀ p ∈ rest, (acc.eraseIdx it.index)[p.index]? = some p.key := by
      intro p hp
      have hlt : p.index < it.index := by
        have := hpair.1 p.index (List.mem_map_of_mem (fun q => q.index) hp)
        omega
      rw [List.getElem?_eraseIdx_of_lt acc it.index p.index hlt]
      exact hget p (List.mem_cons_of_mem it hp)
    have ihr := ih (acc.eraseIdx it.index) hpair.2 hrest
    simp only [List.foldl_cons, hstep, List.map_cons]
    exact List.perm_middle.trans
      ((ihr.cons it.key).trans (perm_cons_eraseIdx_of_getElem? hacc).symm)

/-- Insertion-phase permutation: folding the insertion moves adds exactly
the recorded keys. -/
theorem insert_fold_perm {K : Type} :
    ∀ (items : List (RItem K)) (acc : List K),
      (items.foldl (fun res it => (MoveOp.insert it.key it.index).make res) acc).Perm
        (items.map (fun it => it.key) ++ acc) := by
  intro items
  induction items with
  | nil => intro acc; simp
  | cons it rest ih =>
    intro acc
    simp only [List.foldl_cons, List.map_cons]
    have hstep : ((MoveOp.insert it.key it.index).make acc).Perm (it.key :: acc) :=
      jsSpliceInsert_perm acc _ it.key
    exact (ih _).trans ((hstep.append_left _).trans List.perm_middle)

/-- On key-sorted item lists with strictly increasing keys, the merge scan
computes exactly the two set differences: the `before` items whose key does
not occur in `after`, and the `after` items whose key does not occur in
`before`. -/
theorem scanDiffAux_eq_filters {K : Type} [LinearOrder K] :
    ∀ (fuel : Nat) (before after : List (RItem K)),
      before.length + after.length ≤ fuel →
      (before.map (fun it => it.key)).Pairwise (· < ·) →
      (after.map (fun it => it.key)).Pairwise (· < ·) →
      scanDiffAux fuel before after =
        (before.filter (fun b => decide (b.key ∉ after.map (fun it => it.key))),
          after.filter (fun a => decide (a.key ∉ before.map (fun it => it.key)))) := by
  intro fuel
  induction fuel with
  | zero =>
    intro before after hlen _ _
    have hb : before = [] := by
      cases before with
      | nil => rfl
      | cons x xs => simp at hlen
    have ha : after = [] := by
      cases after with
      | nil => rfl
      | cons x xs => simp at hlen
    subst hb ha
    simp [scanDiffAux]
  | succ fuel ih =>
    intro before after hlen hb ha
    match before, after with
    | [], after => simp [scanDiffAux]
    | b :: bs, [] => simp [scanDiffAux]
    | b :: bs, a :: as_ =>
      simp only [List.map_cons, List.pairwise_cons] at hb ha
      rw [scanDiffAux]
      by_cases h1 : a.key = b.key
      · simp only [h1, if_true]
        rw [ih bs as_ (by simp at hlen ⊢; omega) hb.2 ha.2]
        have hfst : (b :: bs).filter
            (fun x => decide (x.key ∉ (a :: as_).map (fun it => it.key))) =
            bs.filter (fun x => decide (x.key ∉ as_.map (fun it => it.key))) := by
          rw [List.filter_cons]
          have hbmem : b.key ∈ (a :: as_).map (fun it => it.key) := by
            simp [← h1]
          simp only [hbmem, decide_not]
          rw [if_neg (by simp)]
          apply List.filter_congr
          intro x hx
          have hxk : b.key < x.key := hb.1 x.key (List.mem_map_of_mem _ hx)
          have hne : x.key ≠ a.key := by rw [← h1] at hxk; exact (ne_of_gt hxk)
          simp [hne]
        have hsnd : (a :: as_).filter
            (fun x => decide (x.key ∉ (b :: bs).map (fun it => it.key))) =
            as_.filter (fun x => decide (x.key ∉ bs.map (fun it => it.key))) := by
          rw [List.filter_cons]
          have hamem : a.key ∈ (b :: bs).map (fun it => it.key) := by
            simp [h1]
          simp only [hamem, decide_not]
          rw [if_neg (by simp)]
          apply List.filter_congr
          intro x hx
          have hxk : a.key < x.key := ha.1 x.key (List.mem_map_of_mem _ hx)
          have hne : x.key ≠ b.key := by rw [h1] at hxk; exact (ne_of_gt hxk)
          simp [hne]
        rw [hfst, hsnd]
      · by_cases h2 : a.key > b.key
        · simp only [h1, h2, if_false, if_true]
          rw [ih bs (a :: as_) (by simp at hlen ⊢; omega) hb.2
            (by simp only [List.map_cons, List.pairwise_cons]; exact ha)]
          have hbnot : b.key ∉ (a :: as_).map (fun it => it.key) := by
            simp only [List.map_cons, List.mem_cons]
            rintro (h | h)
            · exact absurd h (ne_of_lt h2)
            · obtain ⟨y, hy, hyk⟩ := List.mem_map.mp h
              have : a.key < b.key := hyk ▸ ha.1 y.key (List.mem_map_of_mem _ hy)
              exact absurd h2 (lt_asymm this)
          have hfst : (b :: bs).filter
              (fun x => decide (x.key ∉ (a :: as_).map (fun it => it.key))) =
              b :: bs.filter
                (fun x => decide (x.key ∉ (a :: as_).map (fun it => it.key))) := by
            rw [List.filter_cons]
            rw [if_pos (by simpa using hbnot)]
          have hsnd : (a :: as_).filter
              (fun x => decide (x.key ∉ bs.map (fun it => it.key))) =
              (a :: as_).filter
                (fun x => decide (x.key ∉ (b :: bs).map (fun it => it.key))) := by
            apply List.filter_congr
            intro x hx
            have hxk : b.key < x.key := by
              rcases List.mem_cons.mp hx with rfl | hx
              · exact h2
              · exact lt_trans h2 (ha.1 x.key (List.mem_map_of_mem _ hx))
            have hne : x.key ≠ b.key := ne_of_gt hxk
            simp [hne]
          rw [hfst, hsnd]
        · have h3 : a.key < b.key := by
            rcases lt_trichotomy a.key b.key with h | h | h
            · exact h
            · exact absurd h h1
            · exact absurd h h2
          simp only [h1, h2, if_false]
          rw [ih (b :: bs) as_ (by simp at hlen ⊢; omega)
            (by simp only [List.map_cons, List.pairwise_cons]; exact hb) ha.2]
          have hanot : a.key ∉ (b :: bs).map (fun it => it.key) := by
            simp only [List.map_cons, List.mem_cons]
            rintro (h | h)
            · exact absurd h (ne_of_lt h3)
            · obtain ⟨y, hy, hyk⟩ := List.mem_map.mp h
              have : b.key < a.key := hyk ▸ hb.1 y.key (List.mem_map_of_mem _ hy)
              exact absurd h3 (lt_asymm this)
          have hsnd : (a :: as_).filter
              (fun x => decide (x.key ∉ (b :: bs).map (fun it => it.key))) =
              a :: as_.filter
                (fun x => decide (x.key ∉ (b :: bs).map (fun it => it.key))) := by
            rw [List.filter_cons]
            rw [if_pos (by simpa using hanot)]
          have hfst : (b :: bs).filter
              (fun x => decide (x.key ∉ as_.map (fun it => it.key))) =
              (b :: bs).filter
                (fun x => decide (x.key ∉ (a :: as_).map (fun it => it.key))) := by
            apply List.filter_congr
            intro x hx
            have hxk : a.key < x.key := by
              rcases List.mem_cons.mp hx with rfl | hx
              · exact h3
              · exact lt_trans h3 (hb.1 x.key (List.mem_map_of_mem _ hx))
            have hne : x.key ≠ a.key := ne_of_gt hxk
            simp [hne]
          rw [hfst, hsnd]

/-- Filtering by a key predicate commutes with extracting the keys. -/
theorem map_key_filter {K : Type} (p : K → Bool) (l : List (RItem K)) :
    (l.filter (fun it => p it.key)).map (fun it => it.key) =
      (l.map (fun it => it.key)).filter p := by
  induction l with
  | nil => rfl
  | cons x xs ih =>
    by_cases h : p x.key <;> simp [List.filter_cons, h, ih]

/-- Every item built by `mapIdx` records the list entry at its index. -/
theorem mem_mapIdx_getElem {K : Type} (l : List K) :
    ∀ it ∈ l.mapIdx (fun index key => RItem.mk key index),
      l[it.index]? = some it.key := by
  intro it hit
  rw [List.mapIdx_eq_enum_map] at hit
  obtain ⟨⟨i, k⟩, hmem, rfl⟩ := List.mem_map.mp hit
  have := List.mem_enum_iff_getElem?.mp hmem
  simpa using this

/-- The key list attached to the sorted `before` items is a permutation of
the source key list. -/
theorem sortByKey_map_key_perm {K : Type} [LinearOrder K] (l : List K) :
    ((sortByKey (l.mapIdx (fun index key => RItem.mk key index))).map
      (fun it => it.key)).Perm l := by
  have hperm : (sortByKey (l.mapIdx (fun index key => RItem.mk key index))).Perm
      (l.mapIdx (fun index key => RItem.mk key index)) :=
    List.perm_insertionSort _ _
  have := hperm.map (fun it => it.key)
  rwa [mapIdx_items_map_key] at this

/-- For a duplicate-free key list, the keys of the sorted items are strictly
increasing. -/
theorem sortByKey_pairwise_lt {K : Type} [LinearOrder K] (l : List K)
    (h : l.Nodup) :
    ((sortByKey (l.mapIdx (fun index key => RItem.mk key index))).map
      (fun it => it.key)).Pairwise (· < ·) := by
  set items := l.mapIdx (fun index key => RItem.mk key index) with hitems
  have hs : (sortByKey items).Pairwise (fun a b => a.key ≤ b.key) := by
    haveI : IsTotal (RItem K) (fun a b => a.key ≤ b.key) :=
      ⟨fun a b => le_total _ _⟩
    haveI : IsTrans (RItem K) (fun a b => a.key ≤ b.key) :=
      ⟨fun _ _ _ => le_trans⟩
    exact List.sorted_insertionSort _ items
  have hnd : ((sortByKey items).map (fun it => it.key)).Nodup :=
    ((sortByKey_map_key_perm l).nodup_iff).mpr h
  have hne : (sortByKey items).Pairwise (fun a b => a.key ≠ b.key) :=
    List.pairwise_map.mp hnd
  rw [List.pairwise_map]
  exact (hs.and hne).imp (fun hab => lt_of_le_of_ne hab.1 hab.2)

/-- The removal items carry strictly descending original indices. -/
theorem removalItems_indices_desc {K : Type} [LinearOrder K]
    (source target : List K) :
    ((removalItems source target).map (fun it => it.index)).Pairwise (· > ·) := by
  rw [List.pairwise_map]
  unfold removalItems
  have hlt := sortByIndex_pairwise_lt
    (scanDiff (sortByKey (source.mapIdx (fun index key => RItem.mk key index)))
      (sortByKey (target.mapIdx (fun index key => RItem.mk key index)))).1
    (items_indices_nodup source _ (scanDiffAux_sublists _ _ _).1)
  have := List.pairwise_reverse.mpr hlt
  exact this.imp (fun h => h)

/-- The removal items record the source entry at their original index. -/
theorem removalItems_getElem {K : Type} [LinearOrder K] (source target : List K) :
    ∀ it ∈ removalItems source target, source[it.index]? = some it.key := by
  intro it hit
  unfold removalItems at hit
  rw [List.mem_reverse] at hit
  have hit2 : it ∈ (scanDiff
      (sortByKey (source.mapIdx (fun index key => RItem.mk key index)))
      (sortByKey (target.mapIdx (fun index key => RItem.mk key index)))).1 := by
    have hperm : (sortByIndex (scanDiff
        (sortByKey (source.mapIdx (fun index key => RItem.mk key index)))
        (sortByKey (target.mapIdx (fun index key => RItem.mk key index)))).1).Perm _ :=
      List.perm_insertionSort _ _
    exact hperm.mem_iff.mp hit
  have hbefore : it ∈ sortByKey (source.mapIdx (fun index key => RItem.mk key index)) :=
    (scanDiffAux_sublists _ _ _).1.mem hit2
  have hsrc : it ∈ source.mapIdx (fun index key => RItem.mk key index) :=
    (List.perm_insertionSort _ _).mem_iff.mp hbefore
  exact mem_mapIdx_getElem source it hsrc

/-- With duplicate-free keys, the removal phase removes exactly the source
keys that do not occur in the target. -/
theorem removalKeys_perm {K : Type} [LinearOrder K] (source target : List K)
    (hs : source.Nodup) (ht : target.Nodup) :
    ((removalItems source target).map (fun it => it.key)).Perm
      (source.filter (fun k => decide (k ∉ target))) := by
  have hscan := scanDiffAux_eq_filters
    ((sortByKey (source.mapIdx (fun index key => RItem.mk key index))).length +
      (sortByKey (target.mapIdx (fun index key => RItem.mk key index))).length)
    (sortByKey (source.mapIdx (fun index key => RItem.mk key index)))
    (sortByKey (target.mapIdx (fun index key => RItem.mk key index)))
    (le_refl _) (sortByKey_pairwise_lt source hs) (sortByKey_pairwise_lt target ht)
  have hperm0 : (removalItems source target).Perm
      (scanDiff (sortByKey (source.mapIdx (fun index key => RItem.mk key index)))
        (sortByKey (target.mapIdx (fun index key => RItem.mk key index)))).1 := by
    unfold removalItems
    exact (List.reverse_perm _).trans (List.perm_insertionSort _ _)
  have hperm1 := hperm0.map (fun it => it.key)
  rw [show scanDiff (sortByKey (source.mapIdx (fun index key => RItem.mk key index)))
      (sortByKey (target.mapIdx (fun index key => RItem.mk key index))) =
      scanDiffAux _ _ _ from rfl, hscan] at hperm1
  simp only at hperm1
  rw [map_key_filter (fun k => decide (k ∉ (sortByKey (target.mapIdx
    (fun index key => RItem.mk key index))).map (fun it => it.key)))] at hperm1
  refine hperm1.trans ?_
  have hkeyperm : ((sortByKey (source.mapIdx
      (fun index key => RItem.mk key index))).map (fun it => it.key)).Perm source :=
    sortByKey_map_key_perm source
  refine (hkeyperm.filter _).trans ?_
  have hcongr : source.filter (fun k => decide (k ∉ (sortByKey (target.mapIdx
      (fun index key => RItem.mk key index))).map (fun it => it.key))) =
      source.filter (fun k => decide (k ∉ target)) := by
    apply List.filter_congr
    intro k _
    have := (sortByKey_map_key_perm target).mem_iff (a := k)
    simp [this]
  rw [hcongr]

/-- With duplicate-free keys, the insertion phase inserts exactly the target
keys that do not occur in the source. -/
theorem insertionKeys_perm {K : Type} [LinearOrder K] (source target : List K)
    (hs : source.Nodup) (ht : target.Nodup) :
    ((insertionItems source target).map (fun it => it.key)).Perm
      (target.filter (fun k => decide (k ∉ source))) := by
  have hscan := scanDiffAux_eq_filters
    ((sortByKey (source.mapIdx (fun index key => RItem.mk key index))).length +
      (sortByKey (target.mapIdx (fun index key => RItem.mk key index))).length)
    (sortByKey (source.mapIdx (fun index key => RItem.mk key index)))
    (sortByKey (target.mapIdx (fun index key => RItem.mk key index)))
    (le_refl _) (sortByKey_pairwise_lt source hs) (sortByKey_pairwise_lt target ht)
  have hperm0 : (insertionItems source target).Perm
      (scanDiff (sortByKey (source.mapIdx (fun index key => RItem.mk key index)))
        (sortByKey (target.mapIdx (fun index key => RItem.mk key index)))).2 := by
    unfold insertionItems
    exact List.perm_insertionSort _ _
  have hperm1 := hperm0.map (fun it => it.key)
  rw [show scanDiff (sortByKey (source.mapIdx (fun index key => RItem.mk key index)))
      (sortByKey (target.mapIdx (fun index key => RItem.mk key index))) =
      scanDiffAux _ _ _ from rfl, hscan] at hperm1
  simp only at hperm1
  rw [map_key_filter (fun k => decide (k ∉ (sortByKey (source.mapIdx
    (fun index key => RItem.mk key index))).map (fun it => it.key)))] at hperm1
  refine hperm1.trans ?_
  have hkeyperm : ((sortByKey (target.mapIdx
      (fun index key => RItem.mk key index))).map (fun it => it.key)).Perm target :=
    sortByKey_map_key_perm target
  refine (hkeyperm.filter _).trans ?_
  have hcongr : target.filter (fun k => decide (k ∉ (sortByKey (source.mapIdx
      (fun index key => RItem.mk key index))).map (fun it => it.key))) =
      target.filter (fun k => decide (k ∉ source)) := by
    apply List.filter_congr
    intro k _
    have := (sortByKey_map_key_perm source).mem_iff (a := k)
    simp [this]
  rw [hcongr]

/-- With duplicate-free keys on both sides, the working copy after the
removal and insertion phases is a permutation of the target. -/
theorem afterInsertRemove_perm {K : Type} [LinearOrder K] (source target : List K)
    (hs : source.Nodup) (ht : target.Nodup) :
    (afterInsertRemove source target).Perm target := by
  have hrm := removal_fold_perm (removalItems source target) source
    (removalItems_indices_desc source target) (removalItems_getElem source target)
  have hins := insert_fold_perm (insertionItems source target)
    ((removalItems source target).foldl
      (fun res it => (MoveOp.remove it.key it.index).make res) source)
  have hrk := removalKeys_perm source target hs ht
  have hik := insertionKeys_perm source target hs ht
  -- the source splits into the kept keys and the removed keys
  have hsplit : (source.filter (fun k => decide (k ∈ target)) ++
      source.filter (fun k => decide (k ∉ target))).Perm source := by
    have := List.filter_append_perm (fun k => decide (k ∈ target)) source
    refine List.Perm.trans ?_ this
    apply List.Perm.append_left
    apply List.Perm.of_eq
    apply List.filter_congr
    intro k _
    simp
  -- cancel the removed keys: the post-removal copy holds the kept keys
  have hr1 : ((removalItems source target).foldl
      (fun res it => (MoveOp.remove it.key it.index).make res) source).Perm
      (source.filter (fun k => decide (k ∈ target))) := by
    have h1 : (((removalItems source target).foldl
        (fun res it => (MoveOp.remove it.key it.index).make res) source) ++
        source.filter (fun k => decide (k ∉ target))).Perm
        ((source.filter (fun k => decide (k ∈ target))) ++
          source.filter (fun k => decide (k ∉ target))) := by
      refine List.Perm.trans ?_ (List.Perm.trans hrm ?_)
      · exact List.Perm.append_left _ hrk.symm
      · exact hsplit.symm
    exact (List.perm_append_right_iff _).mp h1
  -- the target splits into the kept keys and the inserted keys
  have hfilters : (source.filter (fun k => decide (k ∈ target))).Perm
      (target.filter (fun k => decide (k ∈ source))) := by
    rw [List.perm_ext_iff_of_nodup (hs.filter _) (ht.filter _)]
    intro k
    simp only [List.mem_filter, decide_eq_true_eq]
    exact ⟨fun h => ⟨h.2, h.1⟩, fun h => ⟨h.2, h.1⟩⟩
  have htsplit : (target.filter (fun k => decide (k ∈ source)) ++
      target.filter (fun k => decide (k ∉ source))).Perm target := by
    have := List.filter_append_perm (fun k => decide (k ∈ source)) target
    refine List.Perm.trans ?_ this
    apply List.Perm.append_left
    apply List.Perm.of_eq
    apply List.filter_congr
    intro k _
    simp
  -- assemble
  unfold afterInsertRemove
  refine hins.trans ?_
  refine List.Perm.trans (List.Perm.append hik hr1) ?_
  refine List.Perm.trans (List.perm_append_comm) ?_
  refine List.Perm.trans (List.Perm.append hfilters (List.Perm.refl _)) htsplit

/-- In a duplicate-free list an element occurs at a unique position. -/
theorem nodup_getElem?_inj {α : Type} {l : List α} (h : l.Nodup) {i j : Nat}
    {v : α} (h1 : l[i]? = some v) (h2 : l[j]? = some v) : i = j := by
  have hi : i < l.length := by
    by_contra hge
    rw [List.getElem?_eq_none (by omega)] at h1
    exact Option.noConfusion h1
  have hj : j < l.length := by
    by_contra hge
    rw [List.getElem?_eq_none (by omega)] at h2
    exact Option.noConfusion h2
  have e1 : l[i] = v := by
    rw [List.getElem?_eq_getElem hi] at h1
    exact Option.some.inj h1
  have e2 : l[j] = v := by
    rw [List.getElem?_eq_getElem hj] at h2
    exact Option.some.inj h2
  exact (List.Nodup.getElem_inj_iff h).mp (by rw [e1, e2])

/-- First-occurrence specification of `Array.indexOf` for a present item. -/
theorem jsIndexOf_spec {K : Type} [DecidableEq K] :
    ∀ (l : List K) (x : K), x ∈ l →
      ∃ i : Nat, jsIndexOf l x = (i : Int) ∧ l[i]? = some x ∧
        ∀ j, j < i → l[j]? ≠ some x := by
  intro l
  induction l with
  | nil => intro x hx; simp at hx
  | cons a l ih =>
    intro x hx
    by_cases hax : a = x
    · refine ⟨0, ?_, by simp [hax], fun j hj => absurd hj (by omega)⟩
      simp [jsIndexOf, List.findIdx?_cons, hax]
    · have hmem : x ∈ l := by
        rcases List.mem_cons.mp hx with h | h
        · exact absurd h.symm hax
        · exact h
      obtain ⟨i, hfi, hget, hmin⟩ := ih x hmem
      have hfi' : l.findIdx? (fun y => y = x) = some i := by
        unfold jsIndexOf at hfi
        match hm : l.findIdx? (fun y => y = x) with
        | some v => rw [hm] at hfi; simp at hfi; rw [hfi]
        | none => rw [hm] at hfi; simp at hfi
      refine ⟨i + 1, ?_, by simpa using hget, ?_⟩
      · unfold jsIndexOf
        rw [List.findIdx?_cons]
        rw [if_neg (by simp [hax])]
        rw [List.findIdx?_succ, hfi']
        simp
      · intro j hj
        cases j with
        | zero => simpa using hax
        | succ j =>
          have := hmin j (by omega)
          simpa using this

/-- Inserting at a position within bounds splits the list there. -/
theorem insertIdx_eq_take_cons_drop {α : Type} :
    ∀ (k : Nat) (l : List α) (x : α), k ≤ l.length →
      l.insertIdx k x = l.take k ++ x :: l.drop k := by
  intro k
  induction k with
  | zero => intro l x _; simp
  | succ k ih =>
    intro l x h
    cases l with
    | nil => simp at h
    | cons a l =>
      rw [List.insertIdx_succ_cons]
      rw [ih l x (by simpa using h)]
      simp

/-- Erasing at or beyond a position leaves the prefix before it intact. -/
theorem take_eraseIdx_of_le {α : Type} :
    ∀ (i j : Nat) (l : List α), j ≤ i → (l.eraseIdx i).take j = l.take j := by
  intro i j l
  induction l generalizing i j with
  | nil => intro _; simp
  | cons a l ihl =>
    intro hj
    cases i with
    | zero =>
      have : j = 0 := by omega
      simp [this]
    | succ i =>
      cases j with
      | zero => simp
      | succ j =>
        simp only [List.eraseIdx_cons_succ, List.take_succ_cons]
        rw [ihl i j (by omega)]

/-- Erasing strictly before a position turns the drop at that position into
the drop one further in the original list. -/
theorem drop_eraseIdx_of_lt {α : Type} :
    ∀ (i k : Nat) (l : List α), i < k → (l.eraseIdx i).drop k = l.drop (k + 1) := by
  intro i k l
  induction l generalizing i k with
  | nil => intro _; simp
  | cons a l ihl =>
    intro hik
    cases i with
    | zero =>
      simp only [List.eraseIdx_cons_zero, List.drop_succ_cons]
    | succ i =>
      cases k with
      | zero => omega
      | succ k =>
        simp only [List.eraseIdx_cons_succ, List.drop_succ_cons]
        exact ihl i k (by omega)

/-- A JS `splice(k, 0, x)` at an in-range non-negative position splits the
list there. -/
theorem jsSpliceInsert_of_le {α : Type} (l : List α) (k : Nat) (x : α)
    (h : k ≤ l.length) :
    jsSpliceInsert l (k : Int) x = l.take k ++ x :: l.drop k := by
  have h0 : ¬((k : Int) < 0) := by omega
  simp only [jsSpliceInsert, h0, if_false]
  rw [show ((k : Int)).toNat = k from rfl]
  rw [Nat.min_eq_left h]
  exact insertIdx_eq_take_cons_drop k l x h

/-- A JS `splice(i, 1)` at a non-negative position is index erasure. -/
theorem jsSpliceRemove_natCast {α : Type} (l : List α) (i : Nat) :
    jsSpliceRemove l (i : Int) = l.eraseIdx i := by
  have h : ¬((i : Int) < 0) := by omega
  simp [jsSpliceRemove, h]

/-- Forward alignment correctness: scanning the target positions
left-to-right over a working array that is a permutation of a duplicate-free
target, with all positions before `k` already aligned, ends with the working
array equal to the target. -/
theorem alignForward_correct {K : Type} [DecidableEq K] (target : List K)
    (ht : target.Nodup) :
    ∀ (m k : Nat) (src : List K) (ms : List (MoveOp K)),
      k + m = target.length →
      src.Perm target →
      src.take k = target.take k →
      ((List.range' k m).foldl (moveItemIfNeeded target) (ms, src)).2 = target := by
  intro m
  induction m with
  | zero =>
    intro k src ms hk hperm htake
    simp only [List.range'_zero, List.foldl_nil]
    have hlen : src.length = target.length := hperm.length_eq
    have h1 : src.take k = src := List.take_of_length_le (by omega)
    have h2 : target.take k = target := List.take_of_length_le (by omega)
    rw [h1, h2] at htake
    exact htake
  | succ m ih =>
    intro k src ms hk hperm htake
    have hrange : List.range' k (m + 1) = k :: List.range' (k + 1) m := by
      have := List.range'_succ k m 1
      simpa using this
    rw [hrange]
    simp only [List.foldl_cons]
    have hklen : k < target.length := by omega
    have hslen : src.length = target.length := hperm.length_eq
    have htk : target[k]? = some target[k] := List.getElem?_eq_getElem hklen
    by_cases hsk : src[k]? = some target[k]
    · have hstep : moveItemIfNeeded target (ms, src) k = (ms, src) := by
        simp only [moveItemIfNeeded, htk]
        rw [if_neg (by simp [hsk])]
      rw [hstep]
      have htake' : src.take (k + 1) = target.take (k + 1) := by
        rw [List.take_succ, List.take_succ, htake, hsk, htk]
      exact ih (k + 1) src ms (by omega) hperm htake'
    · have hmem : target[k] ∈ src := hperm.mem_iff.mpr (target.getElem_mem hklen)
      obtain ⟨i0, hidx, hget0, hmin⟩ := jsIndexOf_spec src target[k] hmem
      have hprefix : ∀ j, j < k → src[j]? = target[j]? := by
        intro j hj
        have h1 : (src.take k)[j]? = src[j]? := by
          rw [List.getElem?_take]
          simp [hj]
        have h2 : (target.take k)[j]? = target[j]? := by
          rw [List.getElem?_take]
          simp [hj]
        rw [← h1, htake, h2]
      have hi0k : k < i0 := by
        rcases Nat.lt_trichotomy i0 k with h | h | h
        · exfalso
          have hp := hprefix i0 h
          rw [hp] at hget0
          have : i0 = k := nodup_getElem?_inj ht hget0 htk
          omega
        · exfalso
          rw [h] at hget0
          exact hsk hget0
        · exact h
      have hi0len : i0 < src.length := by
        by_contra hge
        rw [List.getElem?_eq_none (by omega)] at hget0
        exact Option.noConfusion hget0
      have hstep : moveItemIfNeeded target (ms, src) k =
          (ms ++ [MoveOp.move target[k] (jsIndexOf src target[k]) k],
            (MoveOp.move target[k] (jsIndexOf src target[k]) k).make src) := by
        simp only [moveItemIfNeeded, htk]
        rw [if_pos (by simp [hsk])]
      rw [hstep]
      have hlen' : k ≤ (src.eraseIdx i0).length := by
        rw [List.length_eraseIdx_of_lt hi0len]
        omega
      have hmake : (MoveOp.move target[k] (jsIndexOf src target[k]) k).make src =
          (src.eraseIdx i0).take k ++ target[k] :: (src.eraseIdx i0).drop k := by
        rw [hidx]
        show jsSpliceInsert (jsSpliceRemove src (i0 : Int)) (k : Int) target[k] = _
        rw [jsSpliceRemove_natCast]
        exact jsSpliceInsert_of_le _ k _ hlen'
      rw [hmake]
      have hperm' : ((src.eraseIdx i0).take k ++
          target[k] :: (src.eraseIdx i0).drop k).Perm target := by
        refine (List.Perm.trans List.perm_middle ?_).trans hperm
        rw [List.take_append_drop]
        exact (perm_cons_eraseIdx_of_getElem? hget0).symm
      have htake' : ((src.eraseIdx i0).take k ++
          target[k] :: (src.eraseIdx i0).drop k).take (k + 1) = target.take (k + 1) := by
        have hlentake : ((src.eraseIdx i0).take k).length = k := by
          rw [List.length_take]
          rw [List.length_eraseIdx_of_lt hi0len]
          omega
        rw [List.take_append_eq_append_take, hlentake]
        rw [List.take_of_length_le (by rw [hlentake]; omega)]
        rw [show k + 1 - k = 1 from by omega]
        rw [take_eraseIdx_of_le i0 k src (by omega), htake]
        conv_rhs => rw [List.take_succ, htk]
        simp
      exact ih (k + 1) _ _ (by omega) hperm' htake'

/-- Reverse alignment correctness: scanning the target positions
right-to-left over a working array that is a permutation of a duplicate-free
target, with all positions from `k` on already aligned, ends with the
working array equal to the target. -/
theorem alignReverse_correct {K : Type} [DecidableEq K] (target : List K)
    (ht : target.Nodup) :
    ∀ (k : Nat) (src : List K) (ms : List (MoveOp K)),
      k ≤ target.length →
      src.Perm target →
      src.drop k = target.drop k →
      ((List.range k).reverse.foldl (moveItemIfNeeded target) (ms, src)).2 =
        target := by
  intro k
  induction k with
  | zero =>
    intro src ms _ _ hdrop
    simpa using hdrop
  | succ k ih =>
    intro src ms hk hperm hdrop
    have hrev : (List.range (k + 1)).reverse = k :: (List.range k).reverse := by
      rw [List.range_succ, List.reverse_append]
      simp
    rw [hrev]
    simp only [List.foldl_cons]
    have hklen : k < target.length := by omega
    have hslen : src.length = target.length := hperm.length_eq
    have htk : target[k]? = some target[k] := List.getElem?_eq_getElem hklen
    have hsuffix : ∀ j, k + 1 ≤ j → src[j]? = target[j]? := by
      intro j hj
      have h1 : (src.drop (k + 1))[j - (k + 1)]? = src[(k + 1) + (j - (k + 1))]? :=
        List.getElem?_drop src (k + 1) (j - (k + 1))
      have h2 : (target.drop (k + 1))[j - (k + 1)]? =
          target[(k + 1) + (j - (k + 1))]? :=
        List.getElem?_drop target (k + 1) (j - (k + 1))
      rw [show (k + 1) + (j - (k + 1)) = j from by omega] at h1 h2
      rw [← h1, hdrop, h2]
    by_cases hsk : src[k]? = some target[k]
    · have hstep : moveItemIfNeeded target (ms, src) k = (ms, src) := by
        simp only [moveItemIfNeeded, htk]
        rw [if_neg (by simp [hsk])]
      rw [hstep]
      have hdrop' : src.drop k = target.drop k := by
        rw [List.drop_eq_getElem_cons (show k < src.length from by omega),
          List.drop_eq_getElem_cons hklen, hdrop]
        have : src[k] = target[k] := by
          have := List.getElem?_eq_getElem (show k < src.length from by omega)
          rw [this] at hsk
          exact Option.some.inj hsk
        rw [this]
      exact ih src ms (by omega) hperm hdrop'
    · have hmem : target[k] ∈ src := hperm.mem_iff.mpr (target.getElem_mem hklen)
      obtain ⟨i0, hidx, hget0, hmin⟩ := jsIndexOf_spec src target[k] hmem
      have hi0k : i0 < k := by
        rcases Nat.lt_trichotomy i0 k with h | h | h
        · exact h
        · exfalso
          rw [h] at hget0
          exact hsk hget0
        · exfalso
          have hs := hsuffix i0 (by omega)
          rw [hs] at hget0
          have : i0 = k := nodup_getElem?_inj ht hget0 htk
          omega
      have hi0len : i0 < src.length := by
        by_contra hge
        rw [List.getElem?_eq_none (by omega)] at hget0
        exact Option.noConfusion hget0
      have hstep : moveItemIfNeeded target (ms, src) k =
          (ms ++ [MoveOp.move target[k] (jsIndexOf src target[k]) k],
            (MoveOp.move target[k] (jsIndexOf src target[k]) k).make src) := by
        simp only [moveItemIfNeeded, htk]
        rw [if_pos (by simp [hsk])]
      rw [hstep]
      have hlen' : k ≤ (src.eraseIdx i0).length := by
        rw [List.length_eraseIdx_of_lt hi0len]
        omega
      have hmake : (MoveOp.move target[k] (jsIndexOf src target[k]) k).make src =
          (src.eraseIdx i0).take k ++ target[k] :: (src.eraseIdx i0).drop k := by
        rw [hidx]
        show jsSpliceInsert (jsSpliceRemove src (i0 : Int)) (k : Int) target[k] = _
        rw [jsSpliceRemove_natCast]
        exact jsSpliceInsert_of_le _ k _ hlen'
      rw [hmake]
      have hperm' : ((src.eraseIdx i0).take k ++
          target[k] :: (src.eraseIdx i0).drop k).Perm target := by
        refine (List.Perm.trans List.perm_middle ?_).trans hperm
        rw [List.take_append_drop]
        exact (perm_cons_eraseIdx_of_getElem? hget0).symm
      have hdrop' : ((src.eraseIdx i0).take k ++
          target[k] :: (src.eraseIdx i0).drop k).drop k = target.drop k := by
        have hlentake : ((src.eraseIdx i0).take k).length = k := by
          rw [List.length_take, List.length_eraseIdx_of_lt hi0len]
          omega
        rw [List.drop_append_eq_append_drop, hlentake]
        rw [List.drop_eq_nil_of_le hlentake.le]
        rw [show k - k = 0 from by omega]
        simp only [List.drop_zero, List.nil_append]
        rw [drop_eraseIdx_of_lt i0 k src hi0k, hdrop]
        rw [List.drop_eq_getElem_cons hklen]
      exact ih _ _ (by omega) hperm' hdrop'

/-- Either alignment scan fully aligns a duplicate-free permutation of the
target. -/
theorem calculateIndexChanges_correct {K : Type} [DecidableEq K]
    (src target : List K) (ht : target.Nodup) (hperm : src.Perm target)
    (rev : Bool) :
    (calculateIndexChanges src target rev).2 = target := by
  unfold calculateIndexChanges
  cases rev with
  | false =>
    simp only [Bool.false_eq_true, if_false]
    rw [List.range_eq_range']
    exact alignForward_correct target ht target.length 0 src [] (by omega) hperm
      (by simp)
  | true =>
    simp only [if_true]
    refine alignReverse_correct target ht target.length src [] (le_refl _) hperm ?_
    rw [List.drop_eq_nil_of_le hperm.length_eq.le,
      List.drop_eq_nil_of_le (le_refl _)]

/-- C9: edit-script soundness.  For every pair of duplicate-free key
sequences, applying the moves returned by `calculateMoves` in their returned
order to a working copy of the source sequence transforms it into exactly
the target sequence, and the `result` array carried on the returned move
list equals the target. -/
theorem calculateMoves_sound {K : Type} [LinearOrder K] (source target : List K)
    (favored : Option K) (hs : source.Nodup) (ht : target.Nodup) :
    (calculateMoves source target favored).1.foldl
      (fun l m => m.make l) source = target ∧
    (calculateMoves source target favored).2 = target := by
  obtain ⟨als, h1, h2, _, hbr⟩ := calculateMoves_decomp source target favored
  have hperm := afterInsertRemove_perm source target hs ht
  have hres : (calculateMoves source target favored).2 = target := by
    rcases hbr with ⟨hnil, hr⟩ | ⟨rev, _, h2'⟩
    · rw [h2, hnil]
      simpa using hr
    · rw [h2']
      exact calculateIndexChanges_correct (afterInsertRemove source target)
        target ht hperm rev
  refine ⟨?_, hres⟩
  rw [h1]
  rw [List.foldl_append, List.foldl_append]
  rw [List.foldl_map, List.foldl_map]
  rw [show (insertionItems source target).foldl
      (fun l it => (MoveOp.insert it.key it.index).make l)
      ((removalItems source target).foldl
        (fun l it => (MoveOp.remove it.key it.index).make l) source) =
    afterInsertRemove source target from rfl]
  rw [← h2]
  exact hres

/-- C9 witness: a concrete mixed removal/insertion/alignment case. -/
theorem calculateMoves_sound_witness :
    (['a', 'b', 'c'] : List Char).Nodup ∧ (['c', 'b', 'd'] : List Char).Nodup ∧
    (calculateMoves ['a', 'b', 'c'] ['c', 'b', 'd'] (Option.none : Option Char)).1.foldl
      (fun l m => m.make l) ['a', 'b', 'c'] = ['c', 'b', 'd'] ∧
    (calculateMoves ['a', 'b', 'c'] ['c', 'b', 'd'] (Option.none : Option Char)).2 =
      ['c', 'b', 'd'] := by
  have h := calculateMoves_sound ['a', 'b', 'c'] ['c', 'b', 'd']
    (Option.none : Option Char) (by decide) (by decide)
  exact ⟨by decide, by decide, h.1, h.2⟩

/-- The move list of `calculateMoves` ends in exactly the chosen alignment
moves. -/
theorem calculateMoves_alignment_suffix {K : Type} [LinearOrder K]
    (source target : List K) (favored : Option K) :
    (calculateMoves source target favored).1 =
      (removalItems source target).map (fun it => MoveOp.remove it.key it.index) ++
      (insertionItems source target).map (fun it => MoveOp.insert it.key it.index) ++
      chosenAlignmentMoves source target favored := by
  have hrm := foldl_emit_make (fun it : RItem K => MoveOp.remove it.key it.index)
    (removalItems source target) [] source
  simp only [List.nil_append] at hrm
  have hins := foldl_emit_make (fun it : RItem K => MoveOp.insert it.key it.index)
    (insertionItems source target)
    ((removalItems source target).map (fun it => MoveOp.remove it.key it.index))
    ((removalItems source target).foldl
      (fun acc it => (MoveOp.remove it.key it.index).make acc) source)
  simp only [calculateMoves, chosenAlignmentMoves]
  rw [show (sortByIndex (scanDiff
      (sortByKey (source.mapIdx (fun index key => RItem.mk key index)))
      (sortByKey (target.mapIdx (fun index key => RItem.mk key index)))).1).reverse =
    removalItems source target from rfl]
  rw [show sortByIndex (scanDiff
      (sortByKey (source.mapIdx (fun index key => RItem.mk key index)))
      (sortByKey (target.mapIdx (fun index key => RItem.mk key index)))).2 =
    insertionItems source target from rfl]
  rw [hrm, hins]
  rw [show (insertionItems source target).foldl
      (fun acc it => (MoveOp.insert it.key it.index).make acc)
      ((removalItems source target).foldl
        (fun acc it => (MoveOp.remove it.key it.index).make acc) source) =
    afterInsertRemove source target from rfl]
  simp only [List.nil_append]
  by_cases hr : afterInsertRemove source target = target
  · simp only [hr, if_true]
    simp
  · simp only [hr, if_false]
    by_cases hc : ((calculateIndexChanges (afterInsertRemove source target) target
        false).1.length > 1 ||
      (match favored, (calculateIndexChanges (afterInsertRemove source target) target
          false).1 with
       | some fav, [mv] => mv.item ≠ fav
       | _, _ => false) : Bool)
    · simp only [hc, if_true]
      by_cases hl : (calculateIndexChanges (afterInsertRemove source target)
          target true).1.length ≤
        (calculateIndexChanges (afterInsertRemove source target) target false).1.length
      · simp only [hl, if_true]
      · simp only [hl, if_false]
    · simp only [hc, if_false]
      simp

/-- Neither alignment scan is empty when alignment is needed (for
duplicate-free keys): an empty scan would leave the working copy equal to
the target. -/
theorem alignment_nonempty {K : Type} [LinearOrder K] (source target : List K)
    (hs : source.Nodup) (ht : target.Nodup)
    (hneed : afterInsertRemove source target ≠ target) (rev : Bool) :
    (calculateIndexChanges (afterInsertRemove source target) target rev).1 ≠ [] := by
  intro hnil
  obtain ⟨h2, _⟩ :=
    calculateIndexChanges_sim (afterInsertRemove source target) target rev
  have hcorrect := calculateIndexChanges_correct (afterInsertRemove source target)
    target ht (afterInsertRemove_perm source target hs ht) rev
  rw [h2, hnil] at hcorrect
  simp at hcorrect
  exact hneed hcorrect

/-- C6 counterexample: source `[a, b]`, target `[b, a]`, favored key `b`.
Both alignment scans yield exactly one move and the reversed one leaves the
favored key `b` stationary, yet `calculateMoves` returns the forward
alignment, whose single move relocates `b`. -/
theorem favored_key_counterexample :
    afterInsertRemove (['a', 'b'] : List Char) ['b', 'a'] = ['a', 'b'] ∧
    (calculateIndexChanges (['a', 'b'] : List Char) ['b', 'a'] false).1 =
      [MoveOp.move 'b' 1 0] ∧
    (calculateIndexChanges (['a', 'b'] : List Char) ['b', 'a'] true).1 =
      [MoveOp.move 'a' 0 1] ∧
    (∀ m ∈ (calculateIndexChanges (['a', 'b'] : List Char) ['b', 'a'] true).1,
      MoveOp.item m ≠ 'b') ∧
    (calculateMoves ['a', 'b'] ['b', 'a'] (some 'b')).1 =
      [MoveOp.move 'b' 1 0] := by
  exact ⟨by decide, by decide, by decide, by decide, by decide⟩

/-- C6 (amended): whenever alignment moves are needed (for duplicate-free
keys), `calculateMoves` appends whichever of the forward and reversed
index-alignment scans yields fewer moves; when both yield the same number of
moves it appends the reversed alignment exactly when the forward alignment
has more than one move or consists of a single move of an item other than
the present favored key, and otherwise the forward alignment — the favored
key is not guaranteed to stay stationary. -/
theorem calculateMoves_alignment_choice {K : Type} [LinearOrder K]
    (source target : List K) (favored : Option K)
    (hs : source.Nodup) (ht : target.Nodup)
    (hneed : afterInsertRemove source target ≠ target) :
    (calculateMoves source target favored).1 =
      (removalItems source target).map (fun it => MoveOp.remove it.key it.index) ++
      (insertionItems source target).map (fun it => MoveOp.insert it.key it.index) ++
      chosenAlignmentMoves source target favored ∧
    (chosenAlignmentMoves source target favored).length =
      min (calculateIndexChanges (afterInsertRemove source target) target
          false).1.length
        (calculateIndexChanges (afterInsertRemove source target) target
          true).1.length ∧
    ((calculateIndexChanges (afterInsertRemove source target) target
        false).1.length =
      (calculateIndexChanges (afterInsertRemove source target) target
        true).1.length →
      chosenAlignmentMoves source target favored =
        (if ((calculateIndexChanges (afterInsertRemove source target) target
              false).1.length > 1 ||
            (match favored, (calculateIndexChanges (afterInsertRemove source
                target) target false).1 with
             | some fav, [mv] => mv.item ≠ fav
             | _, _ => false) : Bool) then
          (calculateIndexChanges (afterInsertRemove source target) target true).1
        else
          (calculateIndexChanges (afterInsertRemove source target) target
            false).1)) := by
  have hd := alignment_nonempty source target hs ht hneed false
  have ha := alignment_nonempty source target hs ht hneed true
  have hd1 : 1 ≤ (calculateIndexChanges (afterInsertRemove source target) target
      false).1.length := by
    cases hx : (calculateIndexChanges (afterInsertRemove source target) target
        false).1 with
    | nil => exact absurd hx hd
    | cons y ys => simp [hx]
  have ha1 : 1 ≤ (calculateIndexChanges (afterInsertRemove source target) target
      true).1.length := by
    cases hx : (calculateIndexChanges (afterInsertRemove source target) target
        true).1 with
    | nil => exact absurd hx ha
    | cons y ys => simp [hx]
  refine ⟨calculateMoves_alignment_suffix source target favored, ?_, ?_⟩
  · unfold chosenAlignmentMoves
    rw [if_neg hneed]
    by_cases hc : ((calculateIndexChanges (afterInsertRemove source target) target
        false).1.length > 1 ||
      (match favored, (calculateIndexChanges (afterInsertRemove source target)
          target false).1 with
       | some fav, [mv] => mv.item ≠ fav
       | _, _ => false) : Bool)
    · simp only [hc, if_true]
      by_cases hl : (calculateIndexChanges (afterInsertRemove source target)
          target true).1.length ≤
        (calculateIndexChanges (afterInsertRemove source target) target
          false).1.length
      · simp only [hl, if_true]
        omega
      · simp only [hl, if_false]
        omega
    · simp only [hc, Bool.false_eq_true, if_false]
      have hle : (calculateIndexChanges (afterInsertRemove source target) target
          false).1.length ≤ 1 := by
        by_contra hgt
        apply hc
        simp only [Bool.or_eq_true]
        left
        simpa using (by omega : (calculateIndexChanges (afterInsertRemove source
          target) target false).1.length > 1)
      omega
  · intro htie
    unfold chosenAlignmentMoves
    rw [if_neg hneed]
    by_cases hc : ((calculateIndexChanges (afterInsertRemove source target) target
        false).1.length > 1 ||
      (match favored, (calculateIndexChanges (afterInsertRemove source target)
          target false).1 with
       | some fav, [mv] => mv.item ≠ fav
       | _, _ => false) : Bool)
    · simp only [hc, if_true]
      rw [if_pos (le_of_eq htie.symm)]
    · simp only [hc, Bool.false_eq_true, if_false]

/-- C6 witness: the amended selection rule at a concrete tie. -/
theorem calculateMoves_alignment_choice_witness :
    (['a', 'b'] : List Char).Nodup ∧ (['b', 'a'] : List Char).Nodup ∧
    afterInsertRemove (['a', 'b'] : List Char) ['b', 'a'] ≠ ['b', 'a'] ∧
    (calculateMoves ['a', 'b'] ['b', 'a'] (some 'b')).1 =
      (removalItems (['a', 'b'] : List Char) ['b', 'a']).map
        (fun it => MoveOp.remove it.key it.index) ++
      (insertionItems (['a', 'b'] : List Char) ['b', 'a']).map
        (fun it => MoveOp.insert it.key it.index) ++
      chosenAlignmentMoves ['a', 'b'] ['b', 'a'] (some 'b') ∧
    (chosenAlignmentMoves ['a', 'b'] ['b', 'a'] (some 'b')).length =
      min (calculateIndexChanges (afterInsertRemove (['a', 'b'] : List Char)
          ['b', 'a']) ['b', 'a'] false).1.length
        (calculateIndexChanges (afterInsertRemove (['a', 'b'] : List Char)
          ['b', 'a']) ['b', 'a'] true).1.length := by
  have h := calculateMoves_alignment_choice ['a', 'b'] ['b', 'a'] (some 'b')
    (by decide) (by decide) (by decide)
  exact ⟨by decide, by decide, by decide, h.1, h.2.1⟩
